import Mathlib

/-!
Verification of the Chiliz n8n node utility and trigger layer.

The TypeScript sources are embedded shallowly: strings are Lean `String`s
(manipulated through their `.data` character lists), JavaScript `number`
values arising from `parseInt`, `Number(bigint)` and float division are
modelled as exact integers/rationals rounded to IEEE-754 binary64
precision by `roundDouble` and `roundDoubleRat`, `bigint` is `Int`, and
code that can throw returns `Option`/`Except`.
-/

namespace Chiliz

/-! ### Character classes and digit arithmetic

JavaScript character classes are modelled on Unicode code points
(`Char.toNat`): `0`-`9` is 48-57, `a`-`f` is 97-102, `A`-`F` is 65-70,
`A`-`Z` is 65-90.
-/

/-- Decimal digit `[0-9]`. -/
def isDecDigitCh (c : Char) : Bool := 48 ≤ c.toNat && c.toNat ≤ 57

/-- Hex digit `[a-fA-F0-9]`, as in the address and hash regexes and in
`parseInt(s, 16)`. -/
def isHexDigitJs (c : Char) : Bool :=
  (48 ≤ c.toNat && c.toNat ≤ 57) || (97 ≤ c.toNat && c.toNat ≤ 102) ||
    (65 ≤ c.toNat && c.toNat ≤ 70)

/-- Binary digit `[01]` (for `BigInt("0b...")`). -/
def isBinDigitCh (c : Char) : Bool := 48 ≤ c.toNat && c.toNat ≤ 49

/-- Octal digit `[0-7]` (for `BigInt("0o...")`). -/
def isOctDigitCh (c : Char) : Bool := 48 ≤ c.toNat && c.toNat ≤ 55

/-- Numeric value of a digit character (0 for non-digits). -/
def hexCharVal (c : Char) : Nat :=
  if 48 ≤ c.toNat && c.toNat ≤ 57 then c.toNat - 48
  else if 97 ≤ c.toNat && c.toNat ≤ 102 then c.toNat - 87
  else if 65 ≤ c.toNat && c.toNat ≤ 70 then c.toNat - 55
  else 0

/-- Value denoted by a digit string in base `b` (most significant first). -/
def baseVal (b : Nat) (l : List Char) : Nat :=
  l.foldl (fun a c => b * a + hexCharVal c) 0

/-- Digit character for a value below 16, lowercase as JavaScript
`toString(radix)` produces. -/
def digitChar (d : Nat) : Char :=
  if d < 10 then Char.ofNat (48 + d) else Char.ofNat (87 + d)

/-- Little-endian digits of `n` in base `b`, with explicit structural fuel
so that the kernel can evaluate it on literals. -/
def digitsRecAux (b : Nat) : Nat → Nat → List Nat
  | 0, _ => []
  | fuel + 1, n => if n = 0 then [] else n % b :: digitsRecAux b fuel (n / b)

/-- Little-endian digits of `n` in base `b` (`[]` for 0). -/
def natDigitsLE (b n : Nat) : List Nat := digitsRecAux b n n

/-- Base-`b` representation of a natural number, most significant digit
first, `"0"` for zero — the integer fragment of JavaScript
`toString(radix)`. -/
def natReprBase (b n : Nat) : List Char :=
  if n = 0 then ['0'] else ((natDigitsLE b n).map digitChar).reverse

/-- Decimal representation, as `Number`/`BigInt` `toString()` prints a
nonnegative integer. -/
def decReprL (n : Nat) : List Char := natReprBase 10 n

/-- Hexadecimal representation, as `toString(16)` prints a nonnegative
integer. -/
def hexReprL (n : Nat) : List Char := natReprBase 16 n

/-- JavaScript `toString(16)` on an integer (`Number` or `BigInt`): a minus
sign followed by the hex digits of the absolute value when negative. -/
def intToHexString (n : Int) : List Char :=
  if n < 0 then '-' :: hexReprL n.natAbs else hexReprL n.toNat

/-- JavaScript `toString()` on a `BigInt`: decimal, signed. -/
def intToDecString (n : Int) : List Char :=
  if n < 0 then '-' :: decReprL n.natAbs else decReprL n.toNat

/-- `String.prototype.padStart(k, c)`: left-pad to length `k` (no-op when
already at least that long). -/
def padStartL (k : Nat) (c : Char) (l : List Char) : List Char :=
  List.replicate (k - l.length) c ++ l

/-- Number of significant binary digits of `n` (0 for 0). -/
def bitLen (n : Nat) : Nat := (natDigitsLE 2 n).length

/-- Rounding of a nonnegative integer to the nearest IEEE-754 binary64
value (round-to-nearest, ties-to-even), stated in exact integer
arithmetic; valid below the binary64 overflow threshold.  Values up to
2^53 are exactly representable and unchanged. -/
def roundDouble (n : Nat) : Nat :=
  if n ≤ 2 ^ 53 then n
  else
    let e := bitLen n - 53
    let q := n / 2 ^ e
    let r := n % 2 ^ e
    if 2 * r < 2 ^ e then q * 2 ^ e
    else if 2 ^ e < 2 * r then (q + 1) * 2 ^ e
    else if q % 2 = 0 then q * 2 ^ e else (q + 1) * 2 ^ e

/-- Round a rational to the nearest integer, ties to even. -/
def roundRatTiesEven (x : ℚ) : Int :=
  if x - Int.floor x < 1 / 2 then Int.floor x
  else if (1 : ℚ) / 2 < x - Int.floor x then Int.floor x + 1
  else if Int.floor x % 2 = 0 then Int.floor x else Int.floor x + 1

/-- Rounding of a positive rational to the nearest IEEE-754 binary64
value (round-to-nearest, ties-to-even): scale by the unit in the last
place of the binade `[2^L, 2^(L+1))` with `L = Int.log 2 x`, round to an
integer, scale back.  Valid in the normal finite range (no overflow or
subnormal handling). -/
def roundDoubleRatPos (x : ℚ) : ℚ :=
  (roundRatTiesEven (x / 2 ^ (Int.log 2 x - 52)) : ℚ) * 2 ^ (Int.log 2 x - 52)

/-- Rounding of a rational to the nearest binary64 value, extended to all
signs (binary64 rounding is symmetric). -/
def roundDoubleRat (x : ℚ) : ℚ :=
  if x = 0 then 0
  else if x < 0 then -roundDoubleRatPos (-x) else roundDoubleRatPos x

/-- JavaScript `Number(bigint)`: the integer rounded to the nearest
binary64 value. -/
def numberOfBigInt (i : Int) : Int :=
  if i < 0 then -((roundDouble i.natAbs : Nat) : Int) else ((roundDouble i.toNat : Nat) : Int)

/-! ### JavaScript string primitives -/

/-- Whitespace trimmed by `parseInt` and `BigInt` (ASCII subset). -/
def isJsWs (c : Char) : Bool :=
  c.toNat = 32 || c.toNat = 9 || c.toNat = 10 || c.toNat = 13

/-- Trim leading and trailing whitespace. -/
def trimWs (l : List Char) : List Char :=
  ((l.dropWhile isJsWs).reverse.dropWhile isJsWs).reverse

/-- Does the character list begin with the two characters `0x`? -/
def startsWith0x (l : List Char) : Bool :=
  match l with
  | '0' :: 'x' :: _ => true
  | _ => false

/-- Parse a nonempty all-`p` digit string in base `b`, else fail — the
digit-sequence part of `BigInt(string)`. -/
def parseDigitsIn (b : Nat) (p : Char → Bool) (l : List Char) : Option Int :=
  if l ≠ [] ∧ l.all p then some ((baseVal b l : Nat) : Int) else none

/-- `BigInt(string)`: after trimming, the empty string is 0, `0x`/`0X`
(resp. `0b`/`0B`, `0o`/`0O`) prefixes select hexadecimal (binary, octal),
and otherwise the string must be an optionally signed decimal numeral;
anything else throws (`none`). -/
def jsBigIntParse (s : String) : Option Int :=
  let t := trimWs s.data
  if t.isEmpty then some 0
  else if t.take 2 = ['0', 'x'] ∨ t.take 2 = ['0', 'X'] then
    parseDigitsIn 16 isHexDigitJs (t.drop 2)
  else if t.take 2 = ['0', 'b'] ∨ t.take 2 = ['0', 'B'] then
    parseDigitsIn 2 isBinDigitCh (t.drop 2)
  else if t.take 2 = ['0', 'o'] ∨ t.take 2 = ['0', 'O'] then
    parseDigitsIn 8 isOctDigitCh (t.drop 2)
  else if t.head? = some '-' then
    (parseDigitsIn 10 isDecDigitCh (t.drop 1)).map (fun v => -v)
  else if t.head? = some '+' then parseDigitsIn 10 isDecDigitCh (t.drop 1)
  else parseDigitsIn 10 isDecDigitCh t

/-- Strip one `0x` or `0X` radix mark, as `parseInt(s, 16)` does (also the
specification-side reading of a hex numeral). -/
def dropHexMark (l : List Char) : List Char :=
  if l.take 2 = ['0', 'x'] ∨ l.take 2 = ['0', 'X'] then l.drop 2 else l

/-- Core of `parseInt(s, 16)` after sign splitting: strip an optional
`0x`/`0X` radix mark (`dropHexMark`), take the longest hex-digit run,
fail (`NaN`) when it is empty, and round the value to binary64
precision. -/
def parseIntHexCore (sign : Int) (t2 : List Char) : Option Int :=
  if ((dropHexMark t2).takeWhile isHexDigitJs).isEmpty then none
  else some (sign * ((roundDouble (baseVal 16 ((dropHexMark t2).takeWhile isHexDigitJs)) : Nat) : Int))

/-- `parseInt(s, 16)`: leading whitespace and an optional sign, then the
hex numeral; `none` models `NaN`. -/
def parseIntHex (s : String) : Option Int :=
  if (s.data.dropWhile isJsWs).head? = some '-' then
    parseIntHexCore (-1) ((s.data.dropWhile isJsWs).drop 1)
  else if (s.data.dropWhile isJsWs).head? = some '+' then
    parseIntHexCore 1 ((s.data.dropWhile isJsWs).drop 1)
  else parseIntHexCore 1 (s.data.dropWhile isJsWs)

/-- `c.toLowerCase()` on one character (ASCII range; every string the code
lowercases has already passed an ASCII-only format check). -/
def jsLowerChar (c : Char) : Char :=
  if 65 ≤ c.toNat && c.toNat ≤ 90 then Char.ofNat (c.toNat + 32) else c

/-- `s.toLowerCase()`. -/
def jsToLowerCase (s : String) : String := String.mk (s.data.map jsLowerChar)

/-- JavaScript `<` on strings: lexicographic by code unit. -/
def jsLtChars : List Char → List Char → Bool
  | [], [] => false
  | [], _ :: _ => true
  | _ :: _, [] => false
  | a :: as, b :: bs =>
    if b.toNat < a.toNat then false
    else if a.toNat < b.toNat then true
    else jsLtChars as bs

/-- JavaScript string comparison `a < b`. -/
def jsStrLt (a b : String) : Bool := jsLtChars a.data b.data

/-- The replacement `s.replace(/\.?0+$/, '')` used by the unit formatters:
remove the maximal trailing run of `0`s together with a directly
preceding decimal point (no change when there is no trailing zero). -/
def jsTrimTrailingZeros (l : List Char) : List Char :=
  if (l.reverse.takeWhile (· == '0')).isEmpty then l
  else if (l.reverse.dropWhile (· == '0')).head? = some '.' then
    ((l.reverse.dropWhile (· == '0')).drop 1).reverse
  else (l.reverse.dropWhile (· == '0')).reverse

/-- Lowercase hex digit `[0-9a-f]` (specification-side class used to state
that normalized addresses are lowercased). -/
def isLowerHexDigit (c : Char) : Bool :=
  (48 ≤ c.toNat && c.toNat ≤ 57) || (97 ≤ c.toNat && c.toNat ≤ 102)

/-- Fixed-width base-`b` numeral of exactly `k` digits (most significant
first, truncating above `b ^ k`); proof device for fixed-width
print/parse arguments. -/
def toFixedChars (b : Nat) : Nat → Nat → List Char
  | 0, _ => []
  | k + 1, n => toFixedChars b k (n / b) ++ [digitChar (n % b)]

/-- A valid hexadecimal numeral string: an optional `0x`/`0X` mark followed
by a nonempty run of hex digits. -/
def validHexChars (l : List Char) : Bool :=
  !(dropHexMark l).isEmpty && (dropHexMark l).all isHexDigitJs

/-- Numeric value denoted by a hexadecimal numeral string (ignoring the
radix mark and leading zeros). -/
def hexStrVal (s : String) : Nat := baseVal 16 (dropHexMark s.data)

/-- Remove the trailing zeros of a digit string (specification-side
formulation of the trimming the spec allows). -/
def stripTrailingZeros (l : List Char) : List Char :=
  (l.reverse.dropWhile (· == '0')).reverse

/-- The claim's allowed trimming of a decimal amount `w.f`: drop the
trailing fractional zeros, and the decimal point too when the whole
fractional part is zeros. -/
def trimFrac (w : Nat) (f : List Char) : List Char :=
  if stripTrailingZeros f = [] then decReprL w
  else decReprL w ++ '.' :: stripTrailingZeros f

/-! ### Embedded source functions — `utils/helpers.ts` and
`transport/client.ts` -/

/-- `hexToNumber(hex)`: `''` and `'0x'` are 0, otherwise `parseInt(hex, 16)`
(`none` models `NaN`). -/
def hexToNumber (hex : String) : Option Int :=
  if hex = "" ∨ hex = "0x" then some 0 else parseIntHex hex

/-- `hexToBigInt(hex)`: `''` and `'0x'` are 0, otherwise `BigInt(hex)`
(`none` models the thrown `SyntaxError`). -/
def hexToBigInt (hex : String) : Option Int :=
  if hex = "" ∨ hex = "0x" then some 0 else jsBigIntParse hex

/-- `numberToHex(num)`: `'0x' + num.toString(16)`. -/
def numberToHex (num : Int) : String :=
  String.mk ('0' :: 'x' :: intToHexString num)

/-- `strip0x(hex)`: remove a leading `0x` if present. -/
def strip0x (hex : String) : String :=
  if startsWith0x hex.data then String.mk (hex.data.drop 2) else hex

/-- `padHex(hex, length)`: strip `0x`, left-pad with `0` to `length`,
re-prefix with `0x`. -/
def padHex (hex : String) (length : Nat) : String :=
  String.mk ('0' :: 'x' :: padStartL length '0' (strip0x hex).data)

/-- The pre-computed selector table of `getFunctionSelector` in
`utils/helpers.ts` (12 full ERC-20/ERC-721 signatures). -/
def selectors : List (String × String) :=
  [("transfer(address,uint256)", "0xa9059cbb"),
   ("balanceOf(address)", "0x70a08231"),
   ("totalSupply()", "0x18160ddd"),
   ("name()", "0x06fdde03"),
   ("symbol()", "0x95d89b41"),
   ("decimals()", "0x313ce567"),
   ("approve(address,uint256)", "0x095ea7b3"),
   ("allowance(address,address)", "0xdd62ed3e"),
   ("transferFrom(address,address,uint256)", "0x23b872dd"),
   ("ownerOf(uint256)", "0x6352211e"),
   ("tokenURI(uint256)", "0xc87b56dd"),
   ("safeTransferFrom(address,address,uint256)", "0x42842e0e")]

/-- `getFunctionSelector(signature)`: table lookup with default
`'0x00000000'`, no hashing. -/
def getFunctionSelector (signature : String) : String :=
  (selectors.lookup signature).getD "0x00000000"

/-- The `commonSelectors` table of the duplicate `calculateFunctionSelector`
in the utility actions (the same 12 signatures plus
`getApproved(uint256)`). -/
def commonSelectors : List (String × String) :=
  [("transfer(address,uint256)", "0xa9059cbb"),
   ("approve(address,uint256)", "0x095ea7b3"),
   ("transferFrom(address,address,uint256)", "0x23b872dd"),
   ("balanceOf(address)", "0x70a08231"),
   ("allowance(address,address)", "0xdd62ed3e"),
   ("totalSupply()", "0x18160ddd"),
   ("name()", "0x06fdde03"),
   ("symbol()", "0x95d89b41"),
   ("decimals()", "0x313ce567"),
   ("ownerOf(uint256)", "0x6352211e"),
   ("tokenURI(uint256)", "0xc87b56dd"),
   ("safeTransferFrom(address,address,uint256)", "0x42842e0e"),
   ("getApproved(uint256)", "0x081812fc")]

/-- `calculateFunctionSelector(signature)`: table lookup with default
`'0x00000000'`. -/
def calculateFunctionSelector (signature : String) : String :=
  (commonSelectors.lookup signature).getD "0x00000000"

/-- `encodeAddress(address)`: `padHex(strip0x(address), 64)`. -/
def encodeAddress (address : String) : String :=
  padHex (strip0x address) 64

/-- `encodeUint256(value)`: `padHex(BigInt(value).toString(16), 64)`;
`none` models the exception thrown by `BigInt` on a malformed value. -/
def encodeUint256 (value : String) : Option String :=
  (jsBigIntParse value).map fun n => padHex (String.mk (intToHexString n)) 64

/-- One `{ type, value }` parameter of `buildCallData`. -/
structure CallParam where
  type : String
  value : String
deriving DecidableEq

/-- The parameter loop of `buildCallData`: `address` and `uint256`
parameters append their stripped 64-character encodings, every other
type is skipped. -/
def encodeParamsData : List CallParam → Option (List Char)
  | [] => some []
  | p :: rest =>
    if p.type = "address" then
      (encodeParamsData rest).map fun b => (strip0x (encodeAddress p.value)).data ++ b
    else if p.type = "uint256" then
      match encodeUint256 p.value with
      | none => none
      | some e => (encodeParamsData rest).map fun b => (strip0x e).data ++ b
    else encodeParamsData rest

/-- `buildCallData(functionSignature, params)`: the selector followed by
the encoded parameters. -/
def buildCallData (functionSignature : String) (params : List CallParam) : Option String :=
  (encodeParamsData params).map fun body => getFunctionSelector functionSignature ++ String.mk body

/-- Specification-side class of parameters `buildCallData` actually
encodes: type `address` or `uint256`. -/
def encodableParam (p : CallParam) : Bool :=
  p.type == "address" || p.type == "uint256"

/-- The regex test `^0x[a-fA-F0-9]{40}$` shared by `normalizeAddress`,
`isValidAddress` (in `utils/helpers.ts`) and `isValidAddress`
(in `transport/client.ts`). -/
def matchesAddr (l : List Char) : Bool :=
  match l with
  | '0' :: 'x' :: rest => rest.length == 40 && rest.all isHexDigitJs
  | _ => false

/-- `normalizeAddress(address)`: prefix `0x` when missing, test the regex,
throw on failure, lowercase on success. -/
def normalizeAddress (address : String) : Except String String :=
  if matchesAddr (if startsWith0x address.data then address else "0x" ++ address).data then
    .ok (jsToLowerCase (if startsWith0x address.data then address else "0x" ++ address))
  else .error ("Invalid address: " ++ address)

/-- `isValidAddress(address)` — identical in `utils/helpers.ts` and
`transport/client.ts`: the regex test `^0x[a-fA-F0-9]{40}$`. -/
def isValidAddress (address : String) : Bool := matchesAddr address.data

/-- `calculatePercentage(part, total)`:
`total === 0 ? 0 : Number((part * BigInt(10000)) / total) / 100`.
`BigInt` division truncates toward zero (`Int.tdiv`); `Number(bigint)`
rounds the quotient to the nearest binary64 value (`numberOfBigInt`), and
the float division by `100` is correctly rounded (`roundDoubleRat`), so
the result carries both IEEE-754 roundings. -/
def calculatePercentage (part total : Int) : ℚ :=
  if total = 0 then 0
  else roundDoubleRat ((numberOfBigInt (Int.tdiv (part * 10000) total) : ℚ) / 100)

/-- Core of `formatWeiToCHZ` on a parsed `bigint`: split by
`10n ** 18n` (the exact value of `BigInt(10 ** 18)`), left-pad the
remainder to 18 digits, join with `.` and strip trailing zeros
(falling back to `'0'` when everything is stripped). -/
def formatWeiToCHZCore (weiValue : Int) : String :=
  String.mk
    (if jsTrimTrailingZeros
          (intToDecString (Int.tdiv weiValue ((10 : Int) ^ 18)) ++
            '.' :: padStartL 18 '0' (intToDecString (Int.tmod weiValue ((10 : Int) ^ 18)))) = []
     then ['0']
     else
       jsTrimTrailingZeros
         (intToDecString (Int.tdiv weiValue ((10 : Int) ^ 18)) ++
           '.' :: padStartL 18 '0' (intToDecString (Int.tmod weiValue ((10 : Int) ^ 18)))))

/-- `formatWeiToCHZ(wei)` for a string argument: `BigInt(wei)` then the
formatting core. -/
def formatWeiToCHZ (wei : String) : Option String :=
  (jsBigIntParse wei).map formatWeiToCHZCore

/-- `formatCHZToWei(chz)`: split at the first `.`, right-pad/truncate the
fractional part to 18 digits, concatenate and parse with `BigInt`,
printing the result in decimal. -/
def formatCHZToWei (chz : String) : Option String :=
  (jsBigIntParse (String.mk
      (chz.data.takeWhile (· != '.') ++
        (((match chz.data.dropWhile (· != '.') with
           | [] => ([] : List Char)
           | _ :: tail => tail.takeWhile (· != '.')) ++
          List.replicate 18 '0').take 18)))).map
    fun i => String.mk (intToDecString i)

/-! ### Embedded trigger poll functions (`ChilizTrigger.node.ts`) -/

/-- A poll item fetched from the Socios API (only the fields the trigger
logic reads). -/
structure SocPoll where
  id : String
  title : String
deriving DecidableEq

/-- The emitted `newPollCreated` item of `pollNewPolls`. -/
structure PollEvent where
  event : String
  pollId : String
  title : String
deriving DecidableEq

/-- `pollNewPolls`: given the persisted `lastPollId` cursor and the fetched
poll list, return the emitted items and the updated cursor.  With no (or a
falsy) cursor every fetched poll is emitted; otherwise polls with a truthy
id strictly greater than the cursor are emitted; the cursor becomes the
maximal emitted id when anything is emitted. -/
def pollNewPolls (lastPollId : Option String) (polls : List SocPoll) :
    List PollEvent × Option String :=
  if polls.isEmpty then ([], lastPollId)
  else
    match
      (match lastPollId with
       | some last =>
         if last = "" then polls
         else polls.filter fun p => !(p.id == "") && jsStrLt last p.id
       | none => polls)
    with
    | [] => ([], lastPollId)
    | h :: t =>
      ((h :: t).map fun p => { event := "newPollCreated", pollId := p.id, title := p.title },
        some ((t.foldl (fun a b => if jsStrLt b.id a.id then a else b) h).id))

/-- The block record fetched by `eth_getBlockByNumber` (only the field the
emission logic needs beyond the block number). -/
structure BlockRec where
  hash : String
deriving DecidableEq

/-- The emitted `newBlock` item of `pollNewBlocks`. -/
structure BlockEvent where
  event : String
  blockNumber : Nat
  blockHash : String
deriving DecidableEq

/-- `pollNewBlocks`: given the persisted `lastBlockNumber` cursor, the
current chain head and the fetched block record, return the emitted items
and the updated cursor.  It returns early (cursor unchanged) when a cursor
exists and the head is not strictly newer; otherwise it stores the head
and emits the fetched block when present. -/
def pollNewBlocks (lastBlockNumber : Option Nat) (currentBlock : Nat)
    (blockData : Option BlockRec) : List BlockEvent × Option Nat :=
  match lastBlockNumber with
  | some l =>
    if currentBlock ≤ l then ([], some l)
    else
      ((match blockData with
        | none => []
        | some b => [{ event := "newBlock", blockNumber := currentBlock, blockHash := b.hash }]),
        some currentBlock)
  | none =>
    ((match blockData with
      | none => []
      | some b => [{ event := "newBlock", blockNumber := currentBlock, blockHash := b.hash }]),
      some currentBlock)

/-- The block range `pollTokenTransfers` requests from `eth_getLogs`:
`fromBlock = lastBlockNumber ? lastBlockNumber + 1 : currentBlock - 10`
(numeric truthiness, so a stored 0 behaves like no cursor), `none` when
`fromBlock > currentBlock`. -/
def pollTokenTransfersRange (lastBlockNumber : Option Int) (currentBlock : Int) :
    Option (Int × Int) :=
  if currentBlock <
      (match lastBlockNumber with
       | some l => if l = 0 then currentBlock - 10 else l + 1
       | none => currentBlock - 10) then
    none
  else
    some
      ((match lastBlockNumber with
        | some l => if l = 0 then currentBlock - 10 else l + 1
        | none => currentBlock - 10), currentBlock)

/-! ### Network-call traces of the execute operations (`fanTokens.ts`,
`polls.ts`) -/

/-- One outbound JSON-RPC request (`toAddr` embeds the `to` field of the
`eth_call` parameter object; `to` is reserved in Lean). -/
structure RpcCall where
  method : String
  toAddr : String
  data : String
deriving DecidableEq

/-- The JSON-RPC request trace of `getFanTokenInfo`: the address parameter
goes through `normalizeAddress` first (`.error` models the synchronous
throw, issued before any request), then four `eth_call` requests are made
with `buildCallData` payloads (total on empty parameter lists, so `getD`
is never hit). -/
def getFanTokenInfoCalls (tokenAddress : String) : Except String (List RpcCall) :=
  match normalizeAddress tokenAddress with
  | .error e => .error e
  | .ok address =>
    .ok [{ method := "eth_call", toAddr := address, data := (buildCallData "name()" []).getD "" },
         { method := "eth_call", toAddr := address, data := (buildCallData "symbol()" []).getD "" },
         { method := "eth_call", toAddr := address, data := (buildCallData "decimals()" []).getD "" },
         { method := "eth_call", toAddr := address, data := (buildCallData "totalSupply()" []).getD "" }]

/-- The Socios REST request trace of `getUserVotes`: a missing API key
throws first; otherwise the user-supplied address is appended to the
query string unvalidated and the request is issued. -/
def getUserVotesCalls (sociosApiKey userAddress tokenSymbol : String) (limit : Nat) :
    Except String (List String) :=
  if sociosApiKey = "" then
    .error "Socios API key is required to get user votes. Please configure it in credentials."
  else
    .ok ["/users/votes?limit=" ++ String.mk (decReprL limit) ++
      (if userAddress ≠ "" then "&address=" ++ userAddress else "") ++
      (if tokenSymbol ≠ "" then "&token=" ++ tokenSymbol else "")]

/-! ### Character and digit lemmas -/

set_option maxRecDepth 4000 in
theorem charOfNat_toNat_small : ∀ m, m < 256 → (Char.ofNat m).toNat = m := by decide

theorem hexCharVal_digitChar {d : Nat} (h : d < 16) : hexCharVal (digitChar d) = d := by
  revert h; revert d; decide

theorem isDecDigitCh_digitChar {d : Nat} (h : d < 10) : isDecDigitCh (digitChar d) = true := by
  revert h; revert d; decide

theorem isHexDigitJs_digitChar {d : Nat} (h : d < 16) : isHexDigitJs (digitChar d) = true := by
  revert h; revert d; decide

theorem hexCharVal_lt_of_dec {c : Char} (h : isDecDigitCh c = true) : hexCharVal c < 10 := by
  simp only [isDecDigitCh, Bool.and_eq_true, decide_eq_true_eq] at h
  unfold hexCharVal
  repeat' split
  all_goals simp_all only [Bool.and_eq_true, decide_eq_true_eq, not_and, not_le]
  all_goals omega

theorem hexCharVal_lt_of_hex {c : Char} (h : isHexDigitJs c = true) : hexCharVal c < 16 := by
  simp only [isHexDigitJs, Bool.and_eq_true, Bool.or_eq_true, decide_eq_true_eq] at h
  unfold hexCharVal
  repeat' split
  all_goals simp_all only [Bool.and_eq_true, decide_eq_true_eq, not_and, not_le]
  all_goals omega

theorem digitChar_hexCharVal {c : Char} (h : isDecDigitCh c = true) : digitChar (hexCharVal c) = c := by
  simp only [isDecDigitCh, Bool.and_eq_true, decide_eq_true_eq] at h
  have hv : hexCharVal c = c.toNat - 48 := by
    simp [hexCharVal, h.1, h.2]
  have hlt : c.toNat - 48 < 10 := by omega
  have : 48 + (c.toNat - 48) = c.toNat := by omega
  rw [hv, digitChar, if_pos hlt, this, Char.ofNat_toNat]

theorem dec_ne_dot {c : Char} (h : isDecDigitCh c = true) : c ≠ '.' := by
  intro he; subst he; exact absurd h (by decide)

theorem dec_ne_zeroChar_iff {c : Char} (h : isDecDigitCh c = true) :
    (c == '0') = true ↔ c = '0' := by
  simp

theorem hexCharVal_zeroChar : hexCharVal '0' = 0 := by decide

/-! ### Base-`b` digit string lemmas -/

theorem digitsRecAux_eq_digits {b : Nat} (hb : 2 ≤ b) :
    ∀ fuel n, n ≤ fuel → digitsRecAux b fuel n = Nat.digits b n := by
  intro fuel
  induction fuel with
  | zero =>
    intro n hn
    interval_cases n
    simp [digitsRecAux]
  | succ fuel ih =>
    intro n hn
    by_cases h0 : n = 0
    · subst h0; simp [digitsRecAux]
    · rw [digitsRecAux, if_neg h0, Nat.digits_def' (by omega : 1 < b) (Nat.pos_of_ne_zero h0),
        ih (n / b)]
      have := Nat.div_lt_self (Nat.pos_of_ne_zero h0) (by omega : 1 < b)
      omega

theorem natDigitsLE_eq {b n : Nat} (hb : 2 ≤ b) : natDigitsLE b n = Nat.digits b n :=
  digitsRecAux_eq_digits hb n n le_rfl

theorem baseVal_foldl_shift (b : Nat) :
    ∀ (l : List Char) (a : Nat),
      l.foldl (fun a c => b * a + hexCharVal c) a = a * b ^ l.length + baseVal b l := by
  intro l
  induction l with
  | nil => intro a; simp [baseVal]
  | cons c t ih =>
    intro a
    have hc : baseVal b (c :: t) = hexCharVal c * b ^ t.length + baseVal b t := by
      show List.foldl _ (b * 0 + hexCharVal c) t = _
      rw [ih (b * 0 + hexCharVal c)]; ring_nf
    show List.foldl _ (b * a + hexCharVal c) t = _
    rw [ih (b * a + hexCharVal c), hc, List.length_cons]; ring

theorem baseVal_append (b : Nat) (l m : List Char) :
    baseVal b (l ++ m) = baseVal b l * b ^ m.length + baseVal b m := by
  show List.foldl _ 0 (l ++ m) = _
  rw [List.foldl_append]
  exact baseVal_foldl_shift b m (baseVal b l)

theorem baseVal_snoc (b : Nat) (l : List Char) (c : Char) :
    baseVal b (l ++ [c]) = b * baseVal b l + hexCharVal c := by
  rw [baseVal_append]
  have : baseVal b [c] = hexCharVal c := by
    show b * 0 + hexCharVal c = _
    ring
  rw [this]
  simp only [List.length_singleton, pow_one]
  ring

theorem baseVal_lt {b : Nat} (hb : 1 ≤ b) :
    ∀ {l : List Char}, (∀ c ∈ l, hexCharVal c < b) → baseVal b l < b ^ l.length := by
  intro l
  induction l with
  | nil => intro _; simpa [baseVal] using Nat.one_pos
  | cons c t ih =>
    intro h
    have hc : baseVal b (c :: t) = hexCharVal c * b ^ t.length + baseVal b t := by
      show List.foldl _ (b * 0 + hexCharVal c) t = _
      rw [baseVal_foldl_shift]; ring_nf
    have h1 : baseVal b t < b ^ t.length := ih fun x hx => h x (List.mem_cons_of_mem _ hx)
    have h2 : hexCharVal c + 1 ≤ b := h c (List.mem_cons_self _ _)
    calc baseVal b (c :: t) < (hexCharVal c + 1) * b ^ t.length := by rw [hc]; nlinarith
    _ ≤ b * b ^ t.length := Nat.mul_le_mul_right _ h2
    _ = b ^ (c :: t).length := by rw [List.length_cons, pow_succ]; ring

theorem baseVal_replicate_zero (b k : Nat) : baseVal b (List.replicate k '0') = 0 := by
  induction k with
  | zero => rfl
  | succ k ih =>
    have : List.replicate (k + 1) '0' = List.replicate k '0' ++ ['0'] := by
      rw [List.replicate_add, List.replicate_one]
    rw [this, baseVal_snoc, ih, hexCharVal_zeroChar]
    ring

theorem baseVal_rev_map {b : Nat} (hb : 2 ≤ b) (hb16 : b ≤ 16) :
    ∀ {ds : List Nat}, (∀ d ∈ ds, d < b) →
      baseVal b ((ds.map digitChar).reverse) = Nat.ofDigits b ds := by
  intro ds
  induction ds with
  | nil => intro _; rfl
  | cons d t ih =>
    intro h
    rw [List.map_cons, List.reverse_cons, baseVal_snoc,
      ih fun x hx => h x (List.mem_cons_of_mem _ hx),
      hexCharVal_digitChar (lt_of_lt_of_le (h d (List.mem_cons_self _ _)) hb16),
      Nat.ofDigits_cons]
    ring

theorem baseVal_singleton_zeroChar (b : Nat) : baseVal b ['0'] = 0 := by
  show b * 0 + hexCharVal '0' = 0
  rw [hexCharVal_zeroChar]; ring

theorem natReprBase_zero (b : Nat) : natReprBase b 0 = ['0'] := by
  simp [natReprBase]

theorem baseVal_natReprBase {b n : Nat} (hb : 2 ≤ b) (hb16 : b ≤ 16) :
    baseVal b (natReprBase b n) = n := by
  by_cases h0 : n = 0
  · subst h0
    rw [natReprBase_zero]
    exact baseVal_singleton_zeroChar b
  · unfold natReprBase
    rw [if_neg h0, natDigitsLE_eq hb,
      baseVal_rev_map hb hb16 fun d hd => Nat.digits_lt_base (by omega) hd,
      Nat.ofDigits_digits]

theorem natReprBase_all_dec (n : Nat) : ∀ c ∈ natReprBase 10 n, isDecDigitCh c = true := by
  by_cases h0 : n = 0
  · subst h0; rw [natReprBase_zero]; decide
  · unfold natReprBase
    rw [if_neg h0, natDigitsLE_eq (by omega)]
    intro c hc
    rw [List.mem_reverse, List.mem_map] at hc
    obtain ⟨d, hd, rfl⟩ := hc
    exact isDecDigitCh_digitChar (Nat.digits_lt_base (by omega) hd)

theorem natReprBase_all_hex {b : Nat} (hb : 2 ≤ b) (hb16 : b ≤ 16) (n : Nat) :
    ∀ c ∈ natReprBase b n, isHexDigitJs c = true := by
  by_cases h0 : n = 0
  · subst h0; rw [natReprBase_zero]; decide
  · unfold natReprBase
    rw [if_neg h0, natDigitsLE_eq hb]
    intro c hc
    rw [List.mem_reverse, List.mem_map] at hc
    obtain ⟨d, hd, rfl⟩ := hc
    exact isHexDigitJs_digitChar (lt_of_lt_of_le (Nat.digits_lt_base (by omega) hd) hb16)

theorem natReprBase_ne_nil (b n : Nat) (hb : 2 ≤ b) : natReprBase b n ≠ [] := by
  unfold natReprBase
  by_cases h0 : n = 0
  · subst h0; simp
  · rw [if_neg h0, natDigitsLE_eq hb]
    simp [Nat.digits_ne_nil_iff_ne_zero, h0]

theorem natReprBase_length_le {b n k : Nat} (hb : 2 ≤ b) (hk : 1 ≤ k) (h : n < b ^ k) :
    (natReprBase b n).length ≤ k := by
  unfold natReprBase
  by_cases h0 : n = 0
  · subst h0; simpa using hk
  · rw [if_neg h0, natDigitsLE_eq hb, List.length_reverse, List.length_map]
    have h1 : b ^ (Nat.digits b n).length ≤ b * n := Nat.base_pow_length_digits_le b n (by omega) h0
    have h2 : b * n < b ^ (k + 1) := by
      rw [pow_succ]
      calc b * n < b * b ^ k := (Nat.mul_lt_mul_left (by omega)).mpr h
      _ = b ^ k * b := by ring
    have := (Nat.pow_lt_pow_iff_right (by omega : 1 < b)).mp (lt_of_le_of_lt h1 h2)
    omega

/-! ### List scanning helpers -/

theorem takeWhile_append_all {p : Char → Bool} :
    ∀ {xs ys : List Char}, (∀ a ∈ xs, p a = true) →
      (xs ++ ys).takeWhile p = xs ++ ys.takeWhile p := by
  intro xs
  induction xs with
  | nil => intro ys _; rfl
  | cons x t ih =>
    intro ys h
    rw [List.cons_append, List.takeWhile_cons, if_pos (h x (List.mem_cons_self _ _)),
      ih fun a ha => h a (List.mem_cons_of_mem _ ha), List.cons_append]

theorem dropWhile_append_all {p : Char → Bool} :
    ∀ {xs ys : List Char}, (∀ a ∈ xs, p a = true) →
      (xs ++ ys).dropWhile p = ys.dropWhile p := by
  intro xs
  induction xs with
  | nil => intro ys _; rfl
  | cons x t ih =>
    intro ys h
    rw [List.cons_append, List.dropWhile_cons, if_pos (h x (List.mem_cons_self _ _)),
      ih fun a ha => h a (List.mem_cons_of_mem _ ha)]

theorem takeWhile_eq_self_of_all {p : Char → Bool} {l : List Char}
    (h : ∀ a ∈ l, p a = true) : l.takeWhile p = l := by
  have := @takeWhile_append_all p l [] h
  simpa using this

theorem dropWhile_eq_nil_of_all {p : Char → Bool} {l : List Char}
    (h : ∀ a ∈ l, p a = true) : l.dropWhile p = [] := by
  have := @dropWhile_append_all p l [] h
  simpa using this

theorem dropWhile_eq_self_of_all_neg {p : Char → Bool} {l : List Char}
    (h : ∀ a ∈ l, p a = false) : l.dropWhile p = l := by
  cases l with
  | nil => rfl
  | cons x t => rw [List.dropWhile_cons, if_neg (by simp [h x (List.mem_cons_self _ _)])]

theorem takeWhile_eq_nil_of_head_neg {p : Char → Bool} {x : Char} {t : List Char}
    (h : p x = false) : (x :: t).takeWhile p = [] := by
  rw [List.takeWhile_cons, if_neg (by simp [h])]

theorem dropWhile_cons_of_neg {p : Char → Bool} {x : Char} {t : List Char}
    (h : p x = false) : (x :: t).dropWhile p = x :: t := by
  rw [List.dropWhile_cons, if_neg (by simp [h])]

theorem head?_dropWhile_false {p : Char → Bool} :
    ∀ {l : List Char} {c : Char}, (l.dropWhile p).head? = some c → p c = false := by
  intro l
  induction l with
  | nil => intro c h; simp at h
  | cons x t ih =>
    intro c h
    rw [List.dropWhile_cons] at h
    by_cases hx : p x = true
    · exact ih (by simpa [hx] using h)
    · rw [if_neg (by simp [hx])] at h
      simp only [List.head?_cons, Option.some_inj] at h
      subst h
      simpa using hx

theorem trimWs_eq_self_of_no_ws {l : List Char} (h : ∀ c ∈ l, isJsWs c = false) :
    trimWs l = l := by
  unfold trimWs
  rw [dropWhile_eq_self_of_all_neg h,
    dropWhile_eq_self_of_all_neg fun c hc => h c (List.mem_reverse.mp hc), List.reverse_reverse]

/-! ### Fixed-width decimal numerals -/

theorem length_toFixedChars (b : Nat) : ∀ k n, (toFixedChars b k n).length = k := by
  intro k
  induction k with
  | zero => intro n; rfl
  | succ k ih =>
    intro n
    rw [toFixedChars, List.length_append, ih]
    simp

theorem toFixedChars_baseVal :
    ∀ {d : List Char}, (∀ c ∈ d, isDecDigitCh c = true) →
      toFixedChars 10 d.length (baseVal 10 d) = d := by
  intro d
  induction d using List.reverseRecOn with
  | nil => intro _; rfl
  | append_singleton t c ih =>
    intro h
    have hc : isDecDigitCh c = true := h c (by simp)
    have ht : ∀ x ∈ t, isDecDigitCh x = true := fun x hx => h x (by simp [hx])
    have hvc : hexCharVal c < 10 := hexCharVal_lt_of_dec hc
    rw [baseVal_snoc, List.length_append, List.length_singleton, toFixedChars]
    have hdiv : (10 * baseVal 10 t + hexCharVal c) / 10 = baseVal 10 t := by omega
    have hmod : (10 * baseVal 10 t + hexCharVal c) % 10 = hexCharVal c := by omega
    rw [hdiv, hmod, ih ht, digitChar_hexCharVal hc]

theorem dec_fixed_width_inj {d e : List Char}
    (hd : ∀ c ∈ d, isDecDigitCh c = true) (he : ∀ c ∈ e, isDecDigitCh c = true)
    (hlen : d.length = e.length) (hval : baseVal 10 d = baseVal 10 e) : d = e := by
  have h1 := toFixedChars_baseVal hd
  have h2 := toFixedChars_baseVal he
  rw [← h1, ← h2, hlen, hval]

theorem padStartL_length_of_le {k : Nat} {c : Char} {l : List Char} (h : l.length ≤ k) :
    (padStartL k c l).length = k := by
  unfold padStartL
  rw [List.length_append, List.length_replicate]
  omega

theorem baseVal_padStartL_zero (b k : Nat) (l : List Char) :
    baseVal b (padStartL k '0' l) = baseVal b l := by
  unfold padStartL
  rw [baseVal_append, baseVal_replicate_zero]
  ring

/-! ### Rounding -/

theorem roundDouble_eq_of_le {n : Nat} (h : n ≤ 2 ^ 53) : roundDouble n = n := by
  unfold roundDouble
  rw [if_pos h]

/-! ### Parsing lemmas -/

theorem dec_not_ws {c : Char} (h : isDecDigitCh c = true) : isJsWs c = false := by
  simp only [isDecDigitCh, Bool.and_eq_true, decide_eq_true_eq] at h
  simp only [isJsWs, Bool.or_eq_false_iff, decide_eq_false_iff_not]
  omega

theorem hex_not_ws {c : Char} (h : isHexDigitJs c = true) : isJsWs c = false := by
  simp only [isHexDigitJs, Bool.and_eq_true, Bool.or_eq_true, decide_eq_true_eq] at h
  simp only [isJsWs, Bool.or_eq_false_iff, decide_eq_false_iff_not]
  omega

theorem take_two_eq_iff {l : List Char} {a b : Char} :
    l.take 2 = [a, b] ↔ ∃ rest, l = a :: b :: rest := by
  constructor
  · intro h
    match l, h with
    | x :: y :: rest, h =>
      simp only [List.take, List.cons.injEq] at h
      obtain ⟨rfl, rfl, -⟩ := h
      exact ⟨rest, rfl⟩
  · rintro ⟨rest, rfl⟩
    rfl

theorem no_radix_mark_of_all_dec {l : List Char} (h : ∀ c ∈ l, isDecDigitCh c = true)
    {c2 : Char} (hc : isDecDigitCh c2 = false) : l.take 2 ≠ ['0', c2] := by
  intro he
  obtain ⟨rest, rfl⟩ := take_two_eq_iff.mp he
  exact absurd (h c2 (by simp)) (by simp [hc])

theorem jsBigIntParse_decDigits {l : List Char} (h1 : l ≠ [])
    (h2 : ∀ c ∈ l, isDecDigitCh c = true) :
    jsBigIntParse (String.mk l) = some ((baseVal 10 l : Nat) : Int) := by
  have hdata : (String.mk l).data = l := rfl
  have htrim : trimWs l = l := trimWs_eq_self_of_no_ws fun c hc => dec_not_ws (h2 c hc)
  have hhead : ∀ c : Char, l.head? = some c → isDecDigitCh c = true := by
    intro c hc
    exact h2 c (List.mem_of_mem_head? hc)
  unfold jsBigIntParse
  rw [hdata, htrim]
  rw [if_neg (by simpa [List.isEmpty_iff] using h1)]
  rw [if_neg (by
    rintro (h | h)
    · exact no_radix_mark_of_all_dec h2 (by decide) h
    · exact no_radix_mark_of_all_dec h2 (by decide) h)]
  rw [if_neg (by
    rintro (h | h)
    · exact no_radix_mark_of_all_dec h2 (by decide) h
    · exact no_radix_mark_of_all_dec h2 (by decide) h)]
  rw [if_neg (by
    rintro (h | h)
    · exact no_radix_mark_of_all_dec h2 (by decide) h
    · exact no_radix_mark_of_all_dec h2 (by decide) h)]
  rw [if_neg (by
    intro h
    have := hhead _ h
    exact absurd this (by decide))]
  rw [if_neg (by
    intro h
    have := hhead _ h
    exact absurd this (by decide))]
  unfold parseDigitsIn
  rw [if_pos ⟨h1, List.all_eq_true.mpr h2⟩]

theorem jsBigIntParse_hexMarked {rest : List Char} (h1 : rest ≠ [])
    (h2 : ∀ c ∈ rest, isHexDigitJs c = true) :
    jsBigIntParse (String.mk ('0' :: 'x' :: rest)) = some ((baseVal 16 rest : Nat) : Int) := by
  have htrim : trimWs ('0' :: 'x' :: rest) = '0' :: 'x' :: rest := by
    apply trimWs_eq_self_of_no_ws
    intro c hc
    rcases List.mem_cons.mp hc with rfl | hc2
    · decide
    rcases List.mem_cons.mp hc2 with rfl | hc3
    · decide
    exact hex_not_ws (h2 c hc3)
  unfold jsBigIntParse
  rw [show (String.mk ('0' :: 'x' :: rest)).data = '0' :: 'x' :: rest from rfl, htrim]
  rw [if_neg (by simp)]
  rw [if_pos (Or.inl (show List.take 2 ('0' :: 'x' :: rest) = ['0', 'x'] from rfl))]
  unfold parseDigitsIn
  rw [if_pos ⟨by simpa using h1, by simpa using List.all_eq_true.mpr h2⟩]
  rfl

theorem decReprL_parse (n : Nat) :
    jsBigIntParse (String.mk (decReprL n)) = some ((n : Nat) : Int) := by
  simp only [decReprL]
  rw [jsBigIntParse_decDigits (natReprBase_ne_nil 10 n (by omega)) (natReprBase_all_dec n)]
  rw [baseVal_natReprBase (by omega) (by omega)]

/-! ### Trailing-zero trimming -/

theorem beq_zeroChar_false_of_ne {c : Char} (h : c ≠ '0') : (c == '0') = false := by
  simpa using h

theorem jsTrim_whole_frac (w f₁ : List Char) (m : Nat)
    (hw : w ≠ []) (hf : ∀ c ∈ f₁, isDecDigitCh c = true)
    (hlast : ∀ c, f₁.reverse.head? = some c → c ≠ '0')
    (hnz : 0 < f₁.length + m) :
    jsTrimTrailingZeros (w ++ '.' :: (f₁ ++ List.replicate m '0')) =
      (if f₁ = [] then w else w ++ '.' :: f₁) := by
  have hrep : ∀ a ∈ List.replicate m '0', (a == '0') = true := by
    intro a ha
    rw [List.eq_of_mem_replicate ha]
    rfl
  have hrev : (w ++ '.' :: (f₁ ++ List.replicate m '0')).reverse
      = List.replicate m '0' ++ (f₁.reverse ++ '.' :: w.reverse) := by
    simp [List.reverse_append]
  have htail : (f₁.reverse ++ '.' :: w.reverse).takeWhile (· == '0') = [] := by
    cases hfr : f₁.reverse with
    | nil =>
      simp only [List.nil_append]
      exact takeWhile_eq_nil_of_head_neg (by decide)
    | cons c t =>
      have hc0 : c ≠ '0' := hlast c (by rw [hfr]; rfl)
      rw [List.cons_append]
      exact takeWhile_eq_nil_of_head_neg (beq_zeroChar_false_of_ne hc0)
  have htake : ((w ++ '.' :: (f₁ ++ List.replicate m '0')).reverse).takeWhile (· == '0')
      = List.replicate m '0' := by
    rw [hrev, takeWhile_append_all hrep, htail, List.append_nil]
  unfold jsTrimTrailingZeros
  by_cases hm : m = 0
  · subst hm
    rw [htake]
    rw [if_pos (by simp)]
    have hf1 : f₁ ≠ [] := by
      intro hn
      rw [hn] at hnz
      simp at hnz
    rw [if_neg hf1]
    simp
  · rw [htake]
    rw [if_neg (by simp [List.isEmpty_iff, hm])]
    have hdrop : ((w ++ '.' :: (f₁ ++ List.replicate m '0')).reverse).dropWhile (· == '0')
        = f₁.reverse ++ '.' :: w.reverse := by
      rw [hrev, dropWhile_append_all hrep]
      cases hfr : f₁.reverse with
      | nil =>
        simp only [List.nil_append]
        exact dropWhile_cons_of_neg (by decide)
      | cons c t =>
        have hc0 : c ≠ '0' := hlast c (by rw [hfr]; rfl)
        rw [List.cons_append]
        exact dropWhile_cons_of_neg (beq_zeroChar_false_of_ne hc0)
    rw [hdrop]
    cases hfr : f₁.reverse with
    | nil =>
      have hf1 : f₁ = [] := by
        have := congrArg List.reverse hfr
        simpa using this
      simp only [List.nil_append, List.head?_cons, Option.some_inj]
      simp [hf1]
    | cons c t =>
      have hf1 : f₁ = (c :: t).reverse := by
        have := congrArg List.reverse hfr
        simpa using this
      have hcd : isDecDigitCh c = true := by
        apply hf
        rw [hf1]
        simp
      have hcdot : c ≠ '.' := dec_ne_dot hcd
      rw [List.cons_append]
      simp only [List.head?_cons, Option.some_inj]
      rw [if_neg (by simpa using hcdot)]
      rw [if_neg (by
        intro hn
        rw [hn] at hfr
        simp at hfr)]
      rw [hf1]
      simp [List.reverse_append]

/-! ### String comparison -/

theorem jsLtChars_nil_right : ∀ l, jsLtChars l [] = false := by
  intro l
  cases l <;> rfl

theorem poll_filter_cond_eq (last : String) (p : SocPoll) :
    (!(p.id == "") && jsStrLt last p.id) = jsStrLt last p.id := by
  by_cases h : p.id = ""
  · have : jsStrLt last p.id = false := by
      unfold jsStrLt
      rw [h]
      exact jsLtChars_nil_right _
    rw [this, h]
    simp
  · simp [h]

/-! ### Lowercasing -/

theorem jsLowerChar_hex {c : Char} (h : isHexDigitJs c = true) :
    isLowerHexDigit (jsLowerChar c) = true ∧ jsLowerChar (jsLowerChar c) = jsLowerChar c
      ∧ isHexDigitJs (jsLowerChar c) = true := by
  simp only [isHexDigitJs, Bool.and_eq_true, Bool.or_eq_true, decide_eq_true_eq] at h
  by_cases hu : 65 ≤ c.toNat ∧ c.toNat ≤ 90
  · have hrange : 65 ≤ c.toNat ∧ c.toNat ≤ 70 := by omega
    have hstep : jsLowerChar c = Char.ofNat (c.toNat + 32) := by
      unfold jsLowerChar
      rw [if_pos (by simp [hu.1, hu.2])]
    have htn : (Char.ofNat (c.toNat + 32)).toNat = c.toNat + 32 :=
      charOfNat_toNat_small _ (by omega)
    refine ⟨?_, ?_, ?_⟩
    · rw [hstep]
      simp only [isLowerHexDigit, htn, Bool.or_eq_true, Bool.and_eq_true, decide_eq_true_eq]
      omega
    · rw [hstep]
      unfold jsLowerChar
      rw [if_neg (by simp only [htn, Bool.and_eq_true, decide_eq_true_eq]; omega)]
    · rw [hstep]
      simp only [isHexDigitJs, htn, Bool.or_eq_true, Bool.and_eq_true, decide_eq_true_eq]
      omega
  · have hstep : jsLowerChar c = c := by
      unfold jsLowerChar
      rw [if_neg (by simp only [Bool.and_eq_true, decide_eq_true_eq]; omega)]
    rw [hstep]
    refine ⟨?_, hstep, ?_⟩
    · simp only [isLowerHexDigit, Bool.or_eq_true, Bool.and_eq_true, decide_eq_true_eq]
      omega
    · simp only [isHexDigitJs, Bool.or_eq_true, Bool.and_eq_true, decide_eq_true_eq]
      omega

theorem jsLowerChar_lower_fixed {c : Char} (h : isLowerHexDigit c = true) :
    jsLowerChar c = c := by
  simp only [isLowerHexDigit, Bool.or_eq_true, Bool.and_eq_true, decide_eq_true_eq] at h
  unfold jsLowerChar
  rw [if_neg (by simp only [Bool.and_eq_true, decide_eq_true_eq]; omega)]

theorem lowerHex_isHex {c : Char} (h : isLowerHexDigit c = true) : isHexDigitJs c = true := by
  simp only [isLowerHexDigit, Bool.or_eq_true, Bool.and_eq_true, decide_eq_true_eq] at h
  simp only [isHexDigitJs, Bool.or_eq_true, Bool.and_eq_true, decide_eq_true_eq]
  omega

/-! ### Table lookup -/

theorem lookup_eq_none_of_not_mem_keys :
    ∀ {l : List (String × String)} {s : String}, s ∉ l.map Prod.fst → l.lookup s = none := by
  intro l
  induction l with
  | nil => intro s _; rfl
  | cons kv t ih =>
    intro s hs
    obtain ⟨k, v⟩ := kv
    simp only [List.map_cons, List.mem_cons, not_or] at hs
    obtain ⟨h1, h2⟩ := hs
    rw [List.lookup_cons]
    have hb : (s == k) = false := beq_eq_false_iff_ne.mpr h1
    simp only [hb]
    exact ih h2

theorem lookup_of_mem_nodup :
    ∀ {l : List (String × String)}, (l.map Prod.fst).Nodup →
      ∀ p ∈ l, l.lookup p.1 = some p.2 := by
  intro l
  induction l with
  | nil => intro _ p hp; simp at hp
  | cons kv t ih =>
    intro hnd p hp
    obtain ⟨k, v⟩ := kv
    simp only [List.map_cons, List.nodup_cons] at hnd
    rcases List.mem_cons.mp hp with rfl | hpt
    · rw [List.lookup_cons]
      simp
    · rw [List.lookup_cons]
      have hb : (p.1 == k) = false := by
        apply beq_eq_false_iff_ne.mpr
        intro he
        exact hnd.1 (he ▸ List.mem_map_of_mem Prod.fst hpt)
      simp only [hb]
      exact ih hnd.2 p hpt

/-! ### Prefix stripping -/

theorem startsWith0x_iff {l : List Char} :
    startsWith0x l = true ↔ ∃ rest, l = '0' :: 'x' :: rest := by
  constructor
  · intro h
    unfold startsWith0x at h
    split at h
    · next rest => exact ⟨rest, rfl⟩
    · exact absurd h (by simp)
  · rintro ⟨rest, rfl⟩
    rfl

theorem matchesAddr_iff {l : List Char} :
    matchesAddr l = true ↔
      ∃ rest, l = '0' :: 'x' :: rest ∧ rest.length = 40 ∧ ∀ c ∈ rest, isHexDigitJs c = true := by
  constructor
  · intro h
    unfold matchesAddr at h
    split at h
    · next rest =>
      simp only [Bool.and_eq_true, beq_iff_eq, List.all_eq_true] at h
      exact ⟨rest, rfl, h.1, h.2⟩
    · exact absurd h (by simp)
  · rintro ⟨rest, rfl, hlen, hall⟩
    unfold matchesAddr
    simp [hlen, List.all_eq_true.mpr hall]

theorem startsWith0x_eq_false_of_all_hex {l : List Char}
    (h : ∀ c ∈ l, isHexDigitJs c = true) : startsWith0x l = false := by
  cases hs : startsWith0x l with
  | false => rfl
  | true =>
    obtain ⟨rest, rfl⟩ := startsWith0x_iff.mp hs
    exact absurd (h 'x' (by simp)) (by decide)

theorem strip0x_eq_self_of_all_hex {s : String}
    (h : ∀ c ∈ s.data, isHexDigitJs c = true) : strip0x s = s := by
  unfold strip0x
  rw [if_neg (by rw [startsWith0x_eq_false_of_all_hex h]; simp)]

theorem strip0x_mk_0x (rest : List Char) :
    strip0x (String.mk ('0' :: 'x' :: rest)) = String.mk rest := rfl

/-! ### `parseInt` on valid hex numerals -/

theorem hex_not_sign {c : Char} (h : isHexDigitJs c = true) : c ≠ '-' ∧ c ≠ '+' := by
  constructor <;> (intro he; subst he; exact absurd h (by decide))

theorem dropHexMark_nil : dropHexMark [] = [] := rfl

theorem parseIntHexCore_valid {l : List Char} (hne : dropHexMark l ≠ [])
    (hall : ∀ c ∈ dropHexMark l, isHexDigitJs c = true) :
    parseIntHexCore 1 l = some ((roundDouble (baseVal 16 (dropHexMark l)) : Nat) : Int) := by
  have hd : (dropHexMark l).takeWhile isHexDigitJs = dropHexMark l :=
    takeWhile_eq_self_of_all hall
  unfold parseIntHexCore
  rw [hd, if_neg (by simpa [List.isEmpty_iff] using hne), one_mul]

theorem parseIntHex_valid {s : String} (h : validHexChars s.data = true) :
    parseIntHex s = some ((roundDouble (hexStrVal s) : Nat) : Int) := by
  unfold validHexChars at h
  rw [Bool.and_eq_true] at h
  obtain ⟨hne, hall⟩ := h
  have hne : dropHexMark s.data ≠ [] := by simpa [List.isEmpty_iff] using hne
  have hall : ∀ c ∈ dropHexMark s.data, isHexDigitJs c = true := List.all_eq_true.mp hall
  by_cases hp : s.data.take 2 = ['0', 'x'] ∨ s.data.take 2 = ['0', 'X']
  · obtain ⟨cx, rest, hr, hcx⟩ :
        ∃ cx rest, s.data = '0' :: cx :: rest ∧ (cx = 'x' ∨ cx = 'X') := by
      rcases hp with hp | hp
      · obtain ⟨rest, hr⟩ := take_two_eq_iff.mp hp
        exact ⟨'x', rest, hr, Or.inl rfl⟩
      · obtain ⟨rest, hr⟩ := take_two_eq_iff.mp hp
        exact ⟨'X', rest, hr, Or.inr rfl⟩
    clear hp
    unfold parseIntHex hexStrVal
    rw [hr]
    rw [dropWhile_cons_of_neg (by decide)]
    rw [if_neg (by simp), if_neg (by simp)]
    rw [hr] at hne hall
    exact parseIntHexCore_valid hne hall
  · have hcore : dropHexMark s.data = s.data := by
      unfold dropHexMark
      rw [if_neg hp]
    cases hl : s.data with
    | nil =>
      rw [hl] at hne
      exact absurd rfl hne
    | cons c0 t0 =>
      rw [hl] at hcore hne hall
      have hhex : isHexDigitJs c0 = true := by
        apply hall
        rw [hcore]
        exact List.mem_cons_self _ _
      unfold parseIntHex hexStrVal
      rw [hl]
      rw [dropWhile_cons_of_neg (hex_not_ws hhex)]
      rw [if_neg (by simpa using (hex_not_sign hhex).1),
        if_neg (by simpa using (hex_not_sign hhex).2)]
      exact parseIntHexCore_valid hne hall

/-! ### Integer casts and printing -/

theorem int_tdiv_coe (a b : Nat) : Int.tdiv (a : Int) (b : Int) = ((a / b : Nat) : Int) := rfl

theorem int_tmod_coe (a b : Nat) : Int.tmod (a : Int) (b : Int) = ((a % b : Nat) : Int) := rfl

theorem intToDecString_coe (n : Nat) : intToDecString (n : Int) = decReprL n := by
  simp [intToDecString]

theorem intToHexString_coe (n : Nat) : intToHexString (n : Int) = hexReprL n := by
  simp [intToHexString]

theorem hexStrVal_numberToHex (n : Nat) : hexStrVal (numberToHex (n : Int)) = n := by
  unfold numberToHex hexStrVal
  rw [intToHexString_coe]
  show baseVal 16 (dropHexMark ('0' :: 'x' :: hexReprL n)) = n
  have hd : dropHexMark ('0' :: 'x' :: hexReprL n) = hexReprL n := by
    unfold dropHexMark
    rw [if_pos (Or.inl (show List.take 2 ('0' :: 'x' :: hexReprL n) = ['0', 'x'] from rfl))]
    rfl
  rw [hd]
  simp only [hexReprL]
  exact baseVal_natReprBase (by omega) (by omega)

theorem jsLowerChar_zeroChar : jsLowerChar '0' = '0' := by decide

theorem jsLowerChar_xChar : jsLowerChar 'x' = 'x' := by decide

/-! ### Claim C7 -/

/-- C7: `isValidAddress(s)` returns `true` exactly when `s` is a
42-character string consisting of the prefix `0x` followed by 40
hexadecimal characters, and returns `false` for every other string
(wrong length, missing prefix, or non-hex characters). -/
theorem c7_is_valid_address (s : String) :
    isValidAddress s = true ↔
      s.length = 42 ∧ s.data.take 2 = ['0', 'x'] ∧
        ∀ c ∈ s.data.drop 2, isHexDigitJs c = true := by
  unfold isValidAddress
  rw [matchesAddr_iff]
  constructor
  · rintro ⟨rest, hr, hlen, hall⟩
    refine ⟨?_, ?_, ?_⟩
    · show s.data.length = 42
      rw [hr]
      simp [hlen]
    · rw [hr]
      rfl
    · rw [hr]
      simpa using hall
  · rintro ⟨hlen, htake, hdrop⟩
    obtain ⟨rest, hr⟩ := take_two_eq_iff.mp htake
    refine ⟨rest, hr, ?_, ?_⟩
    all_goals try rfl
    · have : s.data.length = 42 := hlen
      rw [hr] at this
      simpa using this
    · rw [hr] at hdrop
      simpa using hdrop

/-- Witness for C7 at a concrete valid address. -/
theorem c7_is_valid_address_witness :
    isValidAddress "0xabcdefABCDEF0123456789abcdefabcdef012345" = true :=
  (c7_is_valid_address "0xabcdefABCDEF0123456789abcdefabcdef012345").mpr (by decide)

/-! ### Claim C6 -/

/-- C6: `normalizeAddress` is idempotent — whenever it succeeds with
result `r`, running it again on `r` returns `r` — and its result always
starts with `0x` and contains only lowercase hex digits after the
prefix. -/
theorem c6_normalize_idempotent (a r : String) (h : normalizeAddress a = .ok r) :
    normalizeAddress r = .ok r ∧ r.data.take 2 = ['0', 'x'] ∧
      ∀ c ∈ r.data.drop 2, isLowerHexDigit c = true := by
  unfold normalizeAddress at h
  generalize hN : (if startsWith0x a.data then a else "0x" ++ a) = N at h
  split at h
  case isFalse => simp at h
  case isTrue hc =>
    have hr : r = jsToLowerCase N := by
      simpa using h.symm
    obtain ⟨rest, hNd, hlen, hall⟩ := matchesAddr_iff.mp hc
    have hrd : r.data = '0' :: 'x' :: rest.map jsLowerChar := by
      rw [hr]
      show N.data.map jsLowerChar = _
      rw [hNd, List.map_cons, List.map_cons, jsLowerChar_zeroChar, jsLowerChar_xChar]
    have hmap_lower : ∀ c ∈ rest.map jsLowerChar, isLowerHexDigit c = true := by
      intro c hcm
      obtain ⟨d, hd, rfl⟩ := List.mem_map.mp hcm
      exact (jsLowerChar_hex (hall d hd)).1
    refine ⟨?_, by rw [hrd]; rfl, by rw [hrd]; simpa using hmap_lower⟩
    have hsw : startsWith0x r.data = true := by
      rw [hrd]
      rfl
    have hmatch : matchesAddr r.data = true := by
      apply matchesAddr_iff.mpr
      refine ⟨rest.map jsLowerChar, hrd, by simpa using hlen, ?_⟩
      intro c hcm
      exact lowerHex_isHex (hmap_lower c hcm)
    have hlower_fix : jsToLowerCase r = r := by
      apply String.ext
      show r.data.map jsLowerChar = r.data
      rw [hrd, List.map_cons, List.map_cons, jsLowerChar_zeroChar, jsLowerChar_xChar,
        List.map_map]
      congr 2
      apply List.map_congr_left
      intro d hd
      show jsLowerChar (jsLowerChar d) = jsLowerChar d
      exact (jsLowerChar_hex (hall d hd)).2.1
    unfold normalizeAddress
    rw [if_pos hsw, if_pos hmatch, hlower_fix]

/-- Witness for C6 at a concrete mixed-case address. -/
theorem c6_normalize_idempotent_witness :
    normalizeAddress "0xabcdefabcdef0123456789abcdefabcdef012345"
        = .ok "0xabcdefabcdef0123456789abcdefabcdef012345" ∧
      ("0xabcdefabcdef0123456789abcdefabcdef012345" : String).data.take 2 = ['0', 'x'] ∧
      ∀ c ∈ ("0xabcdefabcdef0123456789abcdefabcdef012345" : String).data.drop 2,
        isLowerHexDigit c = true :=
  c6_normalize_idempotent "0xABCDEFabcdef0123456789ABCDEFabcdef012345"
    "0xabcdefabcdef0123456789abcdefabcdef012345" rfl

/-! ### Claim C9 -/

/-- C9: `getFunctionSelector` and the duplicate `calculateFunctionSelector`
are closed lookups: every signature present in their fixed tables maps to
that table's 4-byte selector, and every other signature maps to the zero
selector `0x00000000` (no hashing, no error). -/
theorem c9_selector_lookup :
    (∀ p ∈ selectors, getFunctionSelector p.1 = p.2) ∧
    (∀ sig : String, sig ∉ selectors.map Prod.fst → getFunctionSelector sig = "0x00000000") ∧
    (∀ p ∈ commonSelectors, calculateFunctionSelector p.1 = p.2) ∧
    (∀ sig : String, sig ∉ commonSelectors.map Prod.fst →
      calculateFunctionSelector sig = "0x00000000") := by
  refine ⟨?_, ?_, ?_, ?_⟩
  · intro p hp
    unfold getFunctionSelector
    rw [lookup_of_mem_nodup (by decide) p hp]
    rfl
  · intro sig hsig
    unfold getFunctionSelector
    rw [lookup_eq_none_of_not_mem_keys hsig]
    rfl
  · intro p hp
    unfold calculateFunctionSelector
    rw [lookup_of_mem_nodup (by decide) p hp]
    rfl
  · intro sig hsig
    unfold calculateFunctionSelector
    rw [lookup_eq_none_of_not_mem_keys hsig]
    rfl

/-- Witness for C9: one hit and one miss in each table. -/
theorem c9_selector_lookup_witness :
    getFunctionSelector "transfer(address,uint256)" = "0xa9059cbb" ∧
    getFunctionSelector "keccak256(bytes32)" = "0x00000000" ∧
    calculateFunctionSelector "getApproved(uint256)" = "0x081812fc" ∧
    calculateFunctionSelector "keccak256(bytes32)" = "0x00000000" := by
  obtain ⟨h1, h2, h3, h4⟩ := c9_selector_lookup
  exact ⟨h1 ("transfer(address,uint256)", "0xa9059cbb") (by decide),
    h2 "keccak256(bytes32)" (by decide),
    h3 ("getApproved(uint256)", "0x081812fc") (by decide),
    h4 "keccak256(bytes32)" (by decide)⟩

/-! ### Claim C5 -/

/-- Rounding a rational that is already an integer changes nothing. -/
theorem roundRatTiesEven_intCast (k : Int) : roundRatTiesEven (k : ℚ) = k := by
  unfold roundRatTiesEven
  rw [Int.floor_intCast]
  norm_num

/-- `Int.log 2` is characterised by the binade bounds. -/
theorem int_log_eq_of_bounds {x : ℚ} {L : Int} (hx : 0 < x)
    (h1 : (2 : ℚ) ^ L ≤ x) (h2 : x < (2 : ℚ) ^ (L + 1)) : Int.log 2 x = L := by
  have hlow : (2 : ℚ) ^ Int.log 2 x ≤ x := Int.zpow_log_le_self (by norm_num) hx
  have hhigh : x < (2 : ℚ) ^ (Int.log 2 x + 1) := Int.lt_zpow_succ_log_self (by norm_num) x
  have ha : Int.log 2 x < L + 1 :=
    (zpow_lt_zpow_iff_right₀ (by norm_num : (1 : ℚ) < 2)).mp (lt_of_le_of_lt hlow h2)
  have hb : L < Int.log 2 x + 1 :=
    (zpow_lt_zpow_iff_right₀ (by norm_num : (1 : ℚ) < 2)).mp (lt_of_le_of_lt h1 hhigh)
  omega

/-- Binary64 rounding is exact on positive representable rationals
`k * 2^s` with a 53-bit significand. -/
theorem roundDoubleRatPos_eq_self {k s : Int} (hk0 : 0 < k)
    (hk : k.natAbs ≤ 2 ^ 53) :
    roundDoubleRatPos ((k : ℚ) * 2 ^ s) = (k : ℚ) * 2 ^ s := by
  have hkq : (0 : ℚ) < (k : ℚ) := by exact_mod_cast hk0
  have hx0 : (0 : ℚ) < (k : ℚ) * 2 ^ s := mul_pos hkq (zpow_pos (by norm_num) s)
  have hlow : (2 : ℚ) ^ Int.log 2 ((k : ℚ) * 2 ^ s) ≤ (k : ℚ) * 2 ^ s :=
    Int.zpow_log_le_self (by norm_num) hx0
  obtain ⟨j, hj⟩ : ∃ j : Int,
      ((k : ℚ) * 2 ^ s) / 2 ^ (Int.log 2 ((k : ℚ) * 2 ^ s) - 52) = (j : ℚ) := by
    set L := Int.log 2 ((k : ℚ) * 2 ^ s) with hLdef
    by_cases hd : L - 52 ≤ s
    · refine ⟨k * 2 ^ (s - (L - 52)).toNat, ?_⟩
      have hts : ((s - (L - 52)).toNat : Int) = s - (L - 52) := Int.toNat_of_nonneg (by omega)
      have hdiv : ((k : ℚ) * 2 ^ s) / 2 ^ (L - 52) = (k : ℚ) * 2 ^ (s - (L - 52)) := by
        rw [mul_div_assoc, ← zpow_sub₀ (by norm_num : (2 : ℚ) ≠ 0)]
      rw [hdiv]
      push_cast
      rw [← zpow_natCast (2 : ℚ) (s - (L - 52)).toNat, hts]
    · -- the lower binade bound forces k = 2^53 and L = s + 53
      have hp53 : (2 : Nat) ^ 53 = 9007199254740992 := by norm_num
      have hknat : k ≤ 9007199254740992 := by omega
      have hk_ge : (2 : ℚ) ^ (53 : Int) ≤ (k : ℚ) := by
        have hge : (2 : ℚ) ^ (L - s) ≤ (k : ℚ) := by
          rw [zpow_sub₀ (by norm_num : (2 : ℚ) ≠ 0),
            div_le_iff₀ (zpow_pos (by norm_num) s)]
          exact hlow
        exact le_trans (zpow_le_zpow_right₀ (by norm_num) (by omega)) hge
      have hge53 : (9007199254740992 : ℚ) ≤ (k : ℚ) := by
        have h53 : (2 : ℚ) ^ (53 : Int) = 9007199254740992 := by norm_num
        linarith [hk_ge, h53.symm.le]
      have hkval : k = 9007199254740992 := by
        have hcast : (9007199254740992 : Int) ≤ k := by exact_mod_cast hge53
        omega
      have hLge : s + 53 ≤ L := by omega
      have hLle : L ≤ s + 53 := by
        have hcmp : (2 : ℚ) ^ L ≤ (2 : ℚ) ^ (s + 53) := by
          calc (2 : ℚ) ^ L ≤ (k : ℚ) * 2 ^ s := hlow
          _ = (2 : ℚ) ^ (s + 53) := by
              rw [hkval, zpow_add₀ (by norm_num : (2 : ℚ) ≠ 0)]
              norm_num
              ring
        exact (zpow_le_zpow_iff_right₀ (by norm_num : (1 : ℚ) < 2)).mp hcmp
      have hLeq : L = s + 53 := le_antisymm hLle hLge
      refine ⟨2 ^ 52, ?_⟩
      rw [hkval, hLeq, show s + 53 - 52 = s + 1 from by omega,
        zpow_add₀ (by norm_num : (2 : ℚ) ≠ 0)]
      push_cast
      rw [div_eq_iff (by positivity)]
      ring_nf
  unfold roundDoubleRatPos
  rw [hj, roundRatTiesEven_intCast, ← hj]
  exact div_mul_cancel₀ _ (zpow_ne_zero _ (by norm_num))

/-- Binary64 rounding is exact on representable rationals of either
sign. -/
theorem roundDoubleRat_eq_self {k s : Int} (hk : k.natAbs ≤ 2 ^ 53) :
    roundDoubleRat ((k : ℚ) * 2 ^ s) = (k : ℚ) * 2 ^ s := by
  rcases lt_trichotomy k 0 with hneg | hzero | hpos
  · have hx : (k : ℚ) * 2 ^ s < 0 :=
      mul_neg_of_neg_of_pos (by exact_mod_cast hneg) (zpow_pos (by norm_num) s)
    unfold roundDoubleRat
    rw [if_neg (ne_of_lt hx), if_pos hx]
    have hnk : -((k : ℚ) * 2 ^ s) = ((-k : Int) : ℚ) * 2 ^ s := by push_cast; ring
    rw [hnk, roundDoubleRatPos_eq_self (by omega) (by simpa using hk)]
    push_cast
    ring
  · subst hzero
    norm_num [roundDoubleRat]
  · have hx : (0 : ℚ) < (k : ℚ) * 2 ^ s :=
      mul_pos (by exact_mod_cast hpos) (zpow_pos (by norm_num) s)
    unfold roundDoubleRat
    rw [if_neg (ne_of_gt hx), if_neg (not_lt.mpr (le_of_lt hx))]
    exact roundDoubleRatPos_eq_self hpos hk

/-- `Number(bigint)` is exact up to 2^53 in magnitude. -/
theorem numberOfBigInt_small {i : Int} (h : i.natAbs ≤ 2 ^ 53) :
    numberOfBigInt i = i := by
  have hp : (2 : Nat) ^ 53 = 9007199254740992 := by norm_num
  unfold numberOfBigInt
  by_cases hi : i < 0
  · rw [if_pos hi, roundDouble_eq_of_le (by omega)]
    omega
  · rw [if_neg hi, roundDouble_eq_of_le (by omega)]
    omega

/-- C5 counterexample: at `part = 2^53 + 1`, `total = 1` the claim's
hypotheses hold (`total` nonzero and dividing `part * 10000` exactly),
but `Number` rounds the quotient 90071992547409930000 to the double
90071992547409936384, and the float division by 100 rounds again to
900719925474099328 — not the exact percentage value
900719925474099300. -/
theorem c5_calculate_percentage_counterexample :
    (1 : Int) ≠ 0 ∧ ((1 : Int) ∣ 9007199254740993 * 10000) ∧
    calculatePercentage 9007199254740993 1 ≠ (9007199254740993 : ℚ) * 100 / 1 := by
  refine ⟨by decide, one_dvd _, ?_⟩
  unfold calculatePercentage
  rw [if_neg (by decide : (1 : Int) ≠ 0),
    show Int.tdiv (9007199254740993 * 10000) 1 = 90071992547409930000 from by decide,
    show numberOfBigInt 90071992547409930000 = 90071992547409936384 from by decide,
    show ((90071992547409936384 : Int) : ℚ) = 90071992547409936384 from by norm_num]
  unfold roundDoubleRat
  rw [if_neg (by norm_num : ¬((90071992547409936384 : ℚ) / 100 = 0)),
    if_neg (by norm_num : ¬((90071992547409936384 : ℚ) / 100 < 0))]
  have hlog : Int.log 2 ((90071992547409936384 : ℚ) / 100) = 59 :=
    int_log_eq_of_bounds (by norm_num) (by norm_num) (by norm_num)
  unfold roundDoubleRatPos
  rw [hlog, show (59 : Int) - 52 = 7 from by decide,
    show (2 : ℚ) ^ (7 : Int) = 128 from by norm_num,
    show (90071992547409936384 : ℚ) / 100 / 128 = 90071992547409936384 / 12800 from by
      norm_num]
  have hF : Int.floor ((90071992547409936384 : ℚ) / 12800) = 7036874417766401 := by
    rw [Int.floor_eq_iff]
    constructor <;> norm_num
  unfold roundRatTiesEven
  rw [hF, if_pos (by norm_num)]
  norm_num

/-- C5 (amended): `calculatePercentage(part, total)` returns 0 when
`total` is 0 rather than throwing; and when `total` is nonzero and
divides `part * 10000` exactly with quotient `N`, it returns the exact
percentage value `part * 100 / total` provided both IEEE-754 roundings
are exact: `|N| ≤ 2^53` (so `Number` keeps the quotient) and `N / 100`
is binary64-representable, i.e. `N / 100 = k * 2^s` with `|k| ≤ 2^53`
(so the float division is exact) — in particular for the spec's examples
25/100 and 1/4 (quotient 2500, percentage 25).  Beyond these bounds the
roundings can change the value. -/
theorem c5_calculate_percentage :
    (∀ part : Int, calculatePercentage part 0 = 0) ∧
    (∀ part total N k s : Int, total ≠ 0 → part * 10000 = total * N →
      N.natAbs ≤ 2 ^ 53 → (N : ℚ) / 100 = (k : ℚ) * 2 ^ s → k.natAbs ≤ 2 ^ 53 →
      calculatePercentage part total = (part : ℚ) * 100 / (total : ℚ)) := by
  constructor
  · intro part
    unfold calculatePercentage
    rw [if_pos rfl]
  · intro part total N k s h0 hN hNle hks hkle
    unfold calculatePercentage
    rw [if_neg h0, hN, Int.mul_tdiv_cancel_left N h0, numberOfBigInt_small hNle, hks,
      roundDoubleRat_eq_self hkle, ← hks]
    have hq : (part : ℚ) * 10000 = (total : ℚ) * (N : ℚ) := by exact_mod_cast hN
    have ht : (total : ℚ) ≠ 0 := Int.cast_ne_zero.mpr h0
    field_simp
    linear_combination -hq

/-- Witness for C5: the degenerate case and the two exact fractions named
by the spec (25/100 and 1/4, both 25 percent, quotient 2500 = 2500 * 2^0
with 2500/100 = 25 * 2^0 representable). -/
theorem c5_calculate_percentage_witness :
    calculatePercentage 25 0 = 0 ∧
    calculatePercentage 25 100 = (25 : ℚ) * 100 / (100 : ℚ) ∧
    calculatePercentage 1 4 = (1 : ℚ) * 100 / (4 : ℚ) := by
  obtain ⟨h1, h2⟩ := c5_calculate_percentage
  exact ⟨h1 25,
    h2 25 100 2500 25 0 (by decide) (by decide) (by decide) (by norm_num) (by decide),
    h2 1 4 2500 25 0 (by decide) (by decide) (by decide) (by norm_num) (by decide)⟩

/-! ### Claim C4 -/

/-- C4 counterexample: `getUserVotes` takes an (optional) user address
parameter and issues its Socios REST request with a malformed address
embedded in the query string, without any synchronous validation throw —
refuting the claim that every execute operation taking an address
parameter rejects malformed addresses before any network request. -/
theorem c4_unvalidated_request_counterexample :
    isValidAddress "0xZZ" = false ∧
      getUserVotesCalls "key" "0xZZ" "" 10 = .ok ["/users/votes?limit=10&address=0xZZ"] := by
  constructor
  · decide
  · rfl

/-- C4 (amended): operations that pass their address parameter through
`normalizeAddress` — in particular `getFanTokenInfo` — reject a malformed
address synchronously, before any JSON-RPC request is issued: the call
trace is an `.error` and contains no requests.  When the address is
valid, the four `eth_call` requests all carry the normalized address. -/
theorem c4_validation_before_network :
    (∀ a : String,
      matchesAddr (if startsWith0x a.data then a else "0x" ++ a).data = false →
        getFanTokenInfoCalls a = .error ("Invalid address: " ++ a)) ∧
    (∀ a r : String, normalizeAddress a = .ok r →
      getFanTokenInfoCalls a =
        .ok [{ method := "eth_call", toAddr := r, data := "0x06fdde03" },
             { method := "eth_call", toAddr := r, data := "0x95d89b41" },
             { method := "eth_call", toAddr := r, data := "0x313ce567" },
             { method := "eth_call", toAddr := r, data := "0x18160ddd" }]) := by
  constructor
  · intro a h
    unfold getFanTokenInfoCalls normalizeAddress
    rw [h]
    rfl
  · intro a r h
    unfold getFanTokenInfoCalls
    rw [h]
    rfl

/-- Witness for C4: a malformed address produces the throw (no request
trace), a valid one produces the four `eth_call` requests. -/
theorem c4_validation_before_network_witness :
    getFanTokenInfoCalls "zz" = .error ("Invalid address: " ++ "zz") ∧
    getFanTokenInfoCalls "0xABCDEFabcdef0123456789ABCDEFabcdef012345" =
      .ok [{ method := "eth_call",
             toAddr := "0xabcdefabcdef0123456789abcdefabcdef012345", data := "0x06fdde03" },
           { method := "eth_call",
             toAddr := "0xabcdefabcdef0123456789abcdefabcdef012345", data := "0x95d89b41" },
           { method := "eth_call",
             toAddr := "0xabcdefabcdef0123456789abcdefabcdef012345", data := "0x313ce567" },
           { method := "eth_call",
             toAddr := "0xabcdefabcdef0123456789abcdefabcdef012345", data := "0x18160ddd" }] := by
  obtain ⟨h1, h2⟩ := c4_validation_before_network
  exact ⟨h1 "zz" (by decide),
    h2 "0xABCDEFabcdef0123456789ABCDEFabcdef012345"
      "0xabcdefabcdef0123456789abcdefabcdef012345" rfl⟩

/-! ### Claim C1 -/

/-- C1 counterexample: on the first invocation, with no prior cursor, the
cursor-based poll functions emit the fetched items instead of emitting
nothing — `pollNewPolls` emits every fetched poll and `pollNewBlocks`
emits the current block. -/
theorem c1_first_poll_emits_counterexample :
    (pollNewPolls none [{ id := "p1", title := "t1" }]).1 ≠ [] ∧
    (pollNewBlocks none 100 (some { hash := "0xabc" })).1 ≠ [] := by
  constructor
  · decide
  · decide

/-- C1 (amended): on the first invocation with no stored cursor the
cursor-based poll functions emit the fetched items themselves while
establishing the cursor (all fetched polls for `pollNewPolls`; the
current block for `pollNewBlocks`; `pollTokenTransfers` requests the last
ten blocks).  On every subsequent invocation (with a truthy cursor) they
emit exactly the fetched items whose identifier is strictly greater than
the cursor: `pollNewPolls` filters by JavaScript string comparison on
poll ids, `pollNewBlocks` emits the fetched head block exactly when its
number exceeds the cursor, and `pollTokenTransfers` requests exactly the
block range starting one past the cursor. -/
theorem c1_polling_cursor :
    (∀ polls : List SocPoll,
      (pollNewPolls none polls).1
        = polls.map fun p => { event := "newPollCreated", pollId := p.id, title := p.title }) ∧
    (∀ (last : String) (polls : List SocPoll), last ≠ "" →
      (pollNewPolls (some last) polls).1
        = (polls.filter fun p => jsStrLt last p.id).map
            fun p => { event := "newPollCreated", pollId := p.id, title := p.title }) ∧
    (∀ (cur : Nat) (bd : Option BlockRec),
      (pollNewBlocks none cur bd).1
        = bd.toList.map fun b => { event := "newBlock", blockNumber := cur, blockHash := b.hash }) ∧
    (∀ (l cur : Nat) (bd : Option BlockRec), l < cur →
      (pollNewBlocks (some l) cur bd).1
        = bd.toList.map fun b => { event := "newBlock", blockNumber := cur, blockHash := b.hash }) ∧
    (∀ (l cur : Nat) (bd : Option BlockRec), cur ≤ l →
      (pollNewBlocks (some l) cur bd).1 = []) ∧
    (∀ (l cur : Int), 0 < l →
      pollTokenTransfersRange (some l) cur
        = if cur < l + 1 then none else some (l + 1, cur)) ∧
    (∀ cur : Int, pollTokenTransfersRange none cur = some (cur - 10, cur)) := by
  refine ⟨?_, ?_, ?_, ?_, ?_, ?_, ?_⟩
  · intro polls
    cases polls with
    | nil => rfl
    | cons h t => rfl
  · intro last polls hlast
    unfold pollNewPolls
    cases polls with
    | nil => rfl
    | cons h t =>
      rw [if_neg (by simp)]
      dsimp only
      rw [if_neg hlast]
      rw [List.filter_congr fun p _ => poll_filter_cond_eq last p]
      cases hfil : List.filter (fun p => jsStrLt last p.id) (h :: t) with
      | nil => rfl
      | cons fh ft => rfl
  · intro cur bd
    cases bd with
    | none => rfl
    | some b => rfl
  · intro l cur bd hlt
    unfold pollNewBlocks
    dsimp only
    rw [if_neg (by omega)]
    cases bd with
    | none => rfl
    | some b => rfl
  · intro l cur bd hle
    unfold pollNewBlocks
    dsimp only
    rw [if_pos hle]
  · intro l cur hl
    unfold pollTokenTransfersRange
    dsimp only
    rw [if_neg (show ¬l = 0 by omega)]
  · intro cur
    unfold pollTokenTransfersRange
    dsimp only
    rw [if_neg (by omega)]

/-- Witness for C1: concrete later-invocation runs of each poll model. -/
theorem c1_polling_cursor_witness :
    (pollNewPolls (some "5") [{ id := "4", title := "a" }, { id := "6", title := "b" }]).1
      = (List.filter (fun p => jsStrLt "5" p.id)
          ([⟨"4", "a"⟩, ⟨"6", "b"⟩] : List SocPoll)).map
            (fun p => { event := "newPollCreated", pollId := p.id, title := p.title }) ∧
    (pollNewBlocks (some 3) 5 (some { hash := "0xh" })).1
      = (some (BlockRec.mk "0xh")).toList.map
          (fun b => { event := "newBlock", blockNumber := 5, blockHash := b.hash }) ∧
    pollTokenTransfersRange (some 7) 20 = if (20 : Int) < 7 + 1 then none else some (7 + 1, 20) := by
  obtain ⟨-, h2, -, h4, -, h6, -⟩ := c1_polling_cursor
  exact ⟨h2 "5" [⟨"4", "a"⟩, ⟨"6", "b"⟩] (by decide),
    h4 3 5 (some ⟨"0xh"⟩) (by decide), h6 7 20 (by decide)⟩

/-! ### Claim C8 -/

/-- Shared fact: on a valid hex numeral `hexToNumber` returns the parsed
value rounded to binary64 precision. -/
theorem hexToNumber_valid {s : String} (h : validHexChars s.data = true) :
    hexToNumber s = some ((roundDouble (hexStrVal s) : Nat) : Int) := by
  unfold hexToNumber
  rw [if_neg (by
    rintro (rfl | rfl)
    · exact absurd h (by decide)
    · exact absurd h (by decide))]
  exact parseIntHex_valid h

/-- C8 counterexample: `hexToBigInt` does not parse unprefixed input as
hexadecimal — `BigInt("10")` parses it as decimal ten, while the
hexadecimal reading of `"10"` is sixteen. -/
theorem c8_bigint_decimal_counterexample :
    hexToBigInt "10" = some 10 ∧ hexStrVal "10" = 16 ∧ (10 : Int) ≠ (16 : Int) := by
  refine ⟨rfl, by decide, by decide⟩

/-- C8 (amended): `hexToNumber` and `hexToBigInt` both return zero on the
empty string and on the bare prefix `0x`; `hexToNumber` parses every
valid hex numeral as hexadecimal (to binary64 precision); `hexToBigInt`
parses `0x`-prefixed hex numerals as hexadecimal but parses bare digit
strings as decimal. -/
theorem c8_hex_zero_defaults :
    (hexToNumber "" = some 0 ∧ hexToNumber "0x" = some 0 ∧
      hexToBigInt "" = some 0 ∧ hexToBigInt "0x" = some 0) ∧
    (∀ s : String, validHexChars s.data = true →
      hexToNumber s = some ((roundDouble (hexStrVal s) : Nat) : Int)) ∧
    (∀ rest : List Char, rest ≠ [] → (∀ c ∈ rest, isHexDigitJs c = true) →
      hexToBigInt (String.mk ('0' :: 'x' :: rest)) = some ((baseVal 16 rest : Nat) : Int)) ∧
    (∀ l : List Char, l ≠ [] → (∀ c ∈ l, isDecDigitCh c = true) →
      hexToBigInt (String.mk l) = some ((baseVal 10 l : Nat) : Int)) := by
  refine ⟨⟨rfl, rfl, rfl, rfl⟩, fun s h => hexToNumber_valid h, ?_, ?_⟩
  · intro rest h1 h2
    unfold hexToBigInt
    rw [if_neg (by
      rintro (he | he)
      · have := congrArg String.data he
        simp at this
      · have := congrArg String.data he
        have h0 : rest = [] := by
          have h2d : ('0' :: 'x' :: rest) = ['0', 'x'] := this
          simpa using congrArg List.length h2d
        exact h1 h0)]
    exact jsBigIntParse_hexMarked h1 h2
  · intro l h1 h2
    unfold hexToBigInt
    rw [if_neg (by
      rintro (he | he)
      · have := congrArg String.data he
        simp only at this
        exact h1 this
      · have hd : l = ['0', 'x'] := congrArg String.data he
        have : isDecDigitCh 'x' = true := h2 'x' (by rw [hd]; simp)
        exact absurd this (by decide))]
    exact jsBigIntParse_decDigits h1 h2

/-- Witness for C8 at concrete numerals: `0xff` through both functions and
the bare digit string `10`. -/
theorem c8_hex_zero_defaults_witness :
    hexToNumber "0xff" = some ((roundDouble (hexStrVal "0xff") : Nat) : Int) ∧
    hexToBigInt (String.mk ('0' :: 'x' :: ['f', 'f']))
      = some ((baseVal 16 ['f', 'f'] : Nat) : Int) ∧
    hexToBigInt (String.mk ['1', '0']) = some ((baseVal 10 ['1', '0'] : Nat) : Int) := by
  obtain ⟨-, h2, h3, h4⟩ := c8_hex_zero_defaults
  exact ⟨h2 "0xff" (by decide), h3 ['f', 'f'] (by decide) (by decide),
    h4 ['1', '0'] (by decide) (by decide)⟩

/-! ### Claim C3 -/

/-- C3 counterexample: `parseInt` rounds to binary64 precision, so the
valid hex string `0x20000000000001` (2^53 + 1) comes back from
`numberToHex(hexToNumber(h))` as `0x20000000000000` (2^53), a different
numeric value — not a mere leading-zero or prefix difference. -/
theorem c3_hex_round_trip_counterexample :
    hexToNumber "0x20000000000001" = some ((9007199254740992 : Nat) : Int) ∧
    hexStrVal "0x20000000000001" = 9007199254740993 ∧
    hexStrVal (numberToHex ((9007199254740992 : Nat) : Int)) = 9007199254740992 ∧
    (9007199254740992 : Nat) ≠ 9007199254740993 := by
  refine ⟨by decide, by decide, ?_, by decide⟩
  rw [hexStrVal_numberToHex]

/-- C3 (amended): for every valid hex string whose value is at most 2^53
(the exact-integer range of binary64), `numberToHex(hexToNumber(h))`
denotes the same numeric value as `h`, differing at most in leading
zeros and the `0x` prefix; above 2^53 `parseInt` rounds and the
round-trip can change the value. -/
theorem c3_hex_round_trip (s : String) (n : Int) (hv : validHexChars s.data = true)
    (hle : hexStrVal s ≤ 2 ^ 53) (h : hexToNumber s = some n) :
    hexStrVal (numberToHex n) = hexStrVal s := by
  rw [hexToNumber_valid hv] at h
  rw [roundDouble_eq_of_le hle] at h
  obtain rfl : ((hexStrVal s : Nat) : Int) = n := Option.some_inj.mp h
  rw [hexStrVal_numberToHex]

/-- Witness for C3 at the concrete valid hex string `0x00ff`. -/
theorem c3_hex_round_trip_witness :
    hexStrVal (numberToHex ((255 : Nat) : Int)) = hexStrVal "0x00ff" :=
  c3_hex_round_trip "0x00ff" ((255 : Nat) : Int) (by decide) (by decide) (by decide)

/-! ### Claim C10 -/

theorem lookup_mem_of_eq_some :
    ∀ {l : List (String × String)} {k v : String}, l.lookup k = some v → (k, v) ∈ l := by
  intro l
  induction l with
  | nil => intro k v h; simp [List.lookup] at h
  | cons kv t ih =>
    intro k v h
    obtain ⟨k0, v0⟩ := kv
    rw [List.lookup_cons] at h
    by_cases hb : (k == k0) = true
    · simp only [hb] at h
      obtain rfl := beq_iff_eq.mp hb
      obtain rfl := Option.some_inj.mp h
      exact List.mem_cons_self _ _
    · rw [Bool.eq_false_iff.mpr hb] at h
      exact List.mem_cons_of_mem _ (ih h)

theorem getFunctionSelector_length (sig : String) : (getFunctionSelector sig).length = 10 := by
  unfold getFunctionSelector
  cases hl : selectors.lookup sig with
  | none => decide
  | some v =>
    have hv := lookup_mem_of_eq_some hl
    have hall : ∀ p ∈ selectors, (Prod.snd p).length = 10 := by decide
    exact hall (sig, v) hv

theorem padStartL_all_hex {l : List Char} (h : ∀ c ∈ l, isHexDigitJs c = true) (k : Nat) :
    ∀ c ∈ padStartL k '0' l, isHexDigitJs c = true := by
  intro c hc
  unfold padStartL at hc
  rcases List.mem_append.mp hc with hc | hc
  · rw [List.eq_of_mem_replicate hc]
    decide
  · exact h c hc

theorem encodeParamsData_spec :
    ∀ params : List CallParam,
      (∀ p ∈ params, p.type = "address" →
        (strip0x p.value).data.length ≤ 64 ∧ ∀ c ∈ (strip0x p.value).data, isHexDigitJs c = true) →
      (∀ p ∈ params, p.type = "uint256" →
        ∃ n : Nat, jsBigIntParse p.value = some ((n : Nat) : Int) ∧ n < 16 ^ 64) →
      ∃ body : List Char,
        encodeParamsData params = some body ∧
        body.length = 64 * (params.filter encodableParam).length ∧
        (∀ c ∈ body, isHexDigitJs c = true) ∧
        encodeParamsData (params.filter encodableParam) = some body := by
  intro params
  induction params with
  | nil => intro _ _; exact ⟨[], rfl, rfl, by simp, rfl⟩
  | cons p rest ih =>
    intro ha hu
    obtain ⟨body, hb, hlen, hhex, hfb⟩ :=
      ih (fun q hq => ha q (List.mem_cons_of_mem _ hq))
        (fun q hq => hu q (List.mem_cons_of_mem _ hq))
    by_cases hpa : p.type = "address"
    · obtain ⟨hle, hall⟩ := ha p (List.mem_cons_self _ _) hpa
      have hstrip : strip0x (strip0x p.value) = strip0x p.value :=
        strip0x_eq_self_of_all_hex hall
      have hchunk : (strip0x (encodeAddress p.value)).data
          = padStartL 64 '0' (strip0x p.value).data := by
        unfold encodeAddress padHex
        rw [hstrip, strip0x_mk_0x]
      have henc : encodableParam p = true := by simp [encodableParam, hpa]
      have hfstep : (p :: rest).filter encodableParam = p :: rest.filter encodableParam :=
        List.filter_cons_of_pos henc
      refine ⟨(strip0x (encodeAddress p.value)).data ++ body, ?_, ?_, ?_, ?_⟩
      · unfold encodeParamsData
        rw [if_pos hpa, hb]
        rfl
      · rw [List.length_append, hchunk, padStartL_length_of_le hle, hlen, hfstep,
          List.length_cons]
        ring
      · intro c hc
        rcases List.mem_append.mp hc with hc | hc
        · rw [hchunk] at hc
          exact padStartL_all_hex hall 64 c hc
        · exact hhex c hc
      · rw [hfstep]
        unfold encodeParamsData
        rw [if_pos hpa, hfb]
        rfl
    · by_cases hpu : p.type = "uint256"
      · obtain ⟨n, hparse, hn⟩ := hu p (List.mem_cons_self _ _) hpu
        have he : encodeUint256 p.value
            = some (padHex (String.mk (intToHexString ((n : Nat) : Int))) 64) := by
          unfold encodeUint256
          rw [hparse]
          rfl
        have hhexall : ∀ c ∈ hexReprL n, isHexDigitJs c = true := by
          intro c hc
          exact natReprBase_all_hex (by omega) (by omega) n c hc
        have hlen16 : (hexReprL n).length ≤ 64 :=
          natReprBase_length_le (by omega) (by omega) hn
        have hchunk : (strip0x (padHex (String.mk (intToHexString ((n : Nat) : Int))) 64)).data
            = padStartL 64 '0' (hexReprL n) := by
          rw [intToHexString_coe]
          unfold padHex
          have hself : strip0x (String.mk (hexReprL n)) = String.mk (hexReprL n) :=
            strip0x_eq_self_of_all_hex hhexall
          rw [hself, strip0x_mk_0x]
        have henc : encodableParam p = true := by simp [encodableParam, hpu]
        have hfstep : (p :: rest).filter encodableParam = p :: rest.filter encodableParam :=
          List.filter_cons_of_pos henc
        refine ⟨(strip0x (padHex (String.mk (intToHexString ((n : Nat) : Int))) 64)).data ++ body,
          ?_, ?_, ?_, ?_⟩
        · unfold encodeParamsData
          rw [if_neg hpa, if_pos hpu, he, hb]
          rfl
        · rw [List.length_append, hchunk, padStartL_length_of_le hlen16, hlen, hfstep,
            List.length_cons]
          ring
        · intro c hc
          rcases List.mem_append.mp hc with hc | hc
          · rw [hchunk] at hc
            exact padStartL_all_hex hhexall 64 c hc
          · exact hhex c hc
        · rw [hfstep]
          unfold encodeParamsData
          rw [if_neg hpa, if_pos hpu, he, hfb]
          rfl
      · have henc : encodableParam p = false := by simp [encodableParam, hpa, hpu]
        have hfstep : (p :: rest).filter encodableParam = rest.filter encodableParam :=
          List.filter_cons_of_neg (by simp [henc])
        refine ⟨body, ?_, ?_, hhex, ?_⟩
        · unfold encodeParamsData
          rw [if_neg hpa, if_neg hpu]
          exact hb
        · rw [hfstep]
          exact hlen
        · rw [hfstep]
          exact hfb

/-- C10: under well-formed values, `buildCallData` returns the
10-character selector followed by exactly 64 hexadecimal characters for
each `address` or `uint256` parameter (in parameter order), and a
parameter of any other type contributes nothing — filtering the
parameter list down to the encodable ones leaves the output unchanged
(silently skipped, never rejected). -/
theorem c10_build_call_data (sig : String) (params : List CallParam)
    (ha : ∀ p ∈ params, p.type = "address" →
      (strip0x p.value).data.length ≤ 64 ∧ ∀ c ∈ (strip0x p.value).data, isHexDigitJs c = true)
    (hu : ∀ p ∈ params, p.type = "uint256" →
      ∃ n : Nat, jsBigIntParse p.value = some ((n : Nat) : Int) ∧ n < 16 ^ 64) :
    (buildCallData sig params).isSome = true ∧
    buildCallData sig (params.filter encodableParam) = buildCallData sig params ∧
    ∀ out : String, buildCallData sig params = some out →
      out.length = 10 + 64 * (params.filter encodableParam).length ∧
      out.data.take 10 = (getFunctionSelector sig).data ∧
      (getFunctionSelector sig).length = 10 ∧
      ∀ c ∈ out.data.drop 10, isHexDigitJs c = true := by
  obtain ⟨body, hb, hlen, hhex, hfb⟩ := encodeParamsData_spec params ha hu
  have hbuild : buildCallData sig params = some (getFunctionSelector sig ++ String.mk body) := by
    unfold buildCallData
    rw [hb]
    rfl
  have hsel : (getFunctionSelector sig).length = 10 := getFunctionSelector_length sig
  have hseld : (getFunctionSelector sig).data.length = 10 := hsel
  refine ⟨by rw [hbuild]; rfl, ?_, ?_⟩
  · unfold buildCallData
    rw [hb, hfb]
  · intro out hout
    rw [hbuild] at hout
    obtain rfl := (Option.some_inj.mp hout).symm
    have hdata : ((getFunctionSelector sig ++ String.mk body)).data
        = (getFunctionSelector sig).data ++ body := String.data_append _ _
    have hdrop : List.drop 10 ((getFunctionSelector sig).data ++ body) = body := by
      rw [← hseld, List.drop_append_eq_append_drop, List.drop_length, Nat.sub_self,
        List.drop_zero, List.nil_append]
    refine ⟨?_, ?_, hsel, ?_⟩
    · rw [String.length_append, hsel]
      show 10 + body.length = _
      rw [hlen]
    · rw [hdata, List.take_append_eq_append_take, hseld]
      simp [List.take_of_length_le (le_of_eq hseld)]
    · intro c hc
      rw [hdata, hdrop] at hc
      exact hhex c hc

/-- Witness for C10: one address parameter, one uint256 parameter and one
skipped `bool` parameter. -/
theorem c10_build_call_data_witness :
    (buildCallData "balanceOf(address)"
        [⟨"address", "0xabcdefabcdef0123456789abcdefabcdef012345"⟩,
         ⟨"uint256", "255"⟩, ⟨"bool", "true"⟩]).isSome = true ∧
    buildCallData "balanceOf(address)"
        ([⟨"address", "0xabcdefabcdef0123456789abcdefabcdef012345"⟩,
          ⟨"uint256", "255"⟩, ⟨"bool", "true"⟩].filter encodableParam)
      = buildCallData "balanceOf(address)"
          [⟨"address", "0xabcdefabcdef0123456789abcdefabcdef012345"⟩,
           ⟨"uint256", "255"⟩, ⟨"bool", "true"⟩] ∧
    ∀ out : String,
      buildCallData "balanceOf(address)"
          [⟨"address", "0xabcdefabcdef0123456789abcdefabcdef012345"⟩,
           ⟨"uint256", "255"⟩, ⟨"bool", "true"⟩] = some out →
        out.length = 10 + 64 * (([⟨"address", "0xabcdefabcdef0123456789abcdefabcdef012345"⟩,
            ⟨"uint256", "255"⟩, ⟨"bool", "true"⟩] : List CallParam).filter encodableParam).length ∧
        out.data.take 10 = (getFunctionSelector "balanceOf(address)").data ∧
        (getFunctionSelector "balanceOf(address)").length = 10 ∧
        ∀ c ∈ out.data.drop 10, isHexDigitJs c = true :=
  c10_build_call_data "balanceOf(address)"
    [⟨"address", "0xabcdefabcdef0123456789abcdefabcdef012345"⟩,
     ⟨"uint256", "255"⟩, ⟨"bool", "true"⟩]
    (by
      intro p hp hty
      fin_cases hp
      · exact ⟨by decide, by decide⟩
      · exact absurd hty (by decide)
      · exact absurd hty (by decide))
    (by
      intro p hp hty
      fin_cases hp
      · exact absurd hty (by decide)
      · exact ⟨255, by decide, by norm_num⟩
      · exact absurd hty (by decide))

/-! ### Claim C2 -/

theorem bne_dot_of_dec {c : Char} (h : isDecDigitCh c = true) : (c != '.') = true := by
  simpa using dec_ne_dot h

theorem takeWhile_ne_dot_append (w f : List Char)
    (hw : ∀ c ∈ w, isDecDigitCh c = true) :
    (w ++ '.' :: f).takeWhile (· != '.') = w := by
  rw [takeWhile_append_all fun a ha => bne_dot_of_dec (hw a ha),
    takeWhile_eq_nil_of_head_neg (by decide), List.append_nil]

theorem dropWhile_ne_dot_append (w f : List Char)
    (hw : ∀ c ∈ w, isDecDigitCh c = true) :
    (w ++ '.' :: f).dropWhile (· != '.') = '.' :: f := by
  rw [dropWhile_append_all fun a ha => bne_dot_of_dec (hw a ha),
    dropWhile_cons_of_neg (by decide)]

theorem padded_take (f : List Char) (hlen : f.length ≤ 18) :
    ((f ++ List.replicate 18 '0').take 18) = f ++ List.replicate (18 - f.length) '0' := by
  rw [List.take_append_eq_append_take, List.take_of_length_le hlen, List.take_replicate,
    min_eq_left (show 18 - f.length ≤ 18 by omega)]

theorem padded_all_dec {f : List Char} (hf : ∀ c ∈ f, isDecDigitCh c = true) :
    ∀ c ∈ f ++ List.replicate (18 - f.length) '0', isDecDigitCh c = true := by
  intro c hc
  rcases List.mem_append.mp hc with hc | hc
  · exact hf c hc
  · rw [List.eq_of_mem_replicate hc]
    decide

theorem padded_length (f : List Char) (hlen : f.length ≤ 18) :
    (f ++ List.replicate (18 - f.length) '0').length = 18 := by
  rw [List.length_append, List.length_replicate]
  omega

theorem padded_val_lt {f : List Char} (hf : ∀ c ∈ f, isDecDigitCh c = true)
    (hlen : f.length ≤ 18) :
    baseVal 10 (f ++ List.replicate (18 - f.length) '0') < 10 ^ 18 := by
  have h := @baseVal_lt 10 (by omega) (f ++ List.replicate (18 - f.length) '0')
    (fun c hc => hexCharVal_lt_of_dec (padded_all_dec hf c hc))
  rwa [padded_length f hlen] at h

theorem decReprL_all_dec (n : Nat) : ∀ c ∈ decReprL n, isDecDigitCh c = true :=
  natReprBase_all_dec n

theorem decReprL_ne_nil (n : Nat) : decReprL n ≠ [] := natReprBase_ne_nil 10 n (by omega)

theorem baseVal_decReprL (n : Nat) : baseVal 10 (decReprL n) = n :=
  baseVal_natReprBase (by omega) (by omega)

/-- Evaluation of `formatCHZToWei` on a canonical decimal amount with a
decimal point. -/
theorem formatCHZToWei_eval_dot (w : Nat) (f : List Char)
    (hf : ∀ c ∈ f, isDecDigitCh c = true) (hlen : f.length ≤ 18) :
    formatCHZToWei (String.mk (decReprL w ++ '.' :: f))
      = some (String.mk (decReprL
          (w * 10 ^ 18 + baseVal 10 (f ++ List.replicate (18 - f.length) '0')))) := by
  unfold formatCHZToWei
  rw [show (String.mk (decReprL w ++ '.' :: f)).data = decReprL w ++ '.' :: f from rfl]
  rw [takeWhile_ne_dot_append _ _ (decReprL_all_dec w),
    dropWhile_ne_dot_append _ _ (decReprL_all_dec w)]
  rw [show (match ('.' :: f : List Char) with
       | [] => ([] : List Char)
       | _ :: tail => tail.takeWhile (· != '.')) = f.takeWhile (· != '.') from rfl]
  rw [takeWhile_eq_self_of_all fun a ha => bne_dot_of_dec (hf a ha)]
  rw [padded_take f hlen]
  have hparse : jsBigIntParse (String.mk
      (decReprL w ++ (f ++ List.replicate (18 - f.length) '0')))
      = some ((baseVal 10 (decReprL w ++ (f ++ List.replicate (18 - f.length) '0')) : Nat) : Int) := by
    apply jsBigIntParse_decDigits
    · intro h
      exact decReprL_ne_nil w (List.append_eq_nil.mp h).1
    · intro c hc
      rcases List.mem_append.mp hc with hc | hc
      · exact decReprL_all_dec w c hc
      · exact padded_all_dec hf c hc
  rw [hparse]
  have hval : baseVal 10 (decReprL w ++ (f ++ List.replicate (18 - f.length) '0'))
      = w * 10 ^ 18 + baseVal 10 (f ++ List.replicate (18 - f.length) '0') := by
    rw [baseVal_append, baseVal_decReprL, padded_length f hlen]
  rw [hval]
  simp only [Option.map_some']
  rw [intToDecString_coe]

/-- Evaluation of `formatCHZToWei` on a whole-number amount (no decimal
point). -/
theorem formatCHZToWei_eval_nodot (w : Nat) :
    formatCHZToWei (String.mk (decReprL w)) = some (String.mk (decReprL (w * 10 ^ 18))) := by
  unfold formatCHZToWei
  rw [show (String.mk (decReprL w)).data = decReprL w from rfl]
  rw [takeWhile_eq_self_of_all fun a ha => bne_dot_of_dec (decReprL_all_dec w a ha),
    dropWhile_eq_nil_of_all fun a ha => bne_dot_of_dec (decReprL_all_dec w a ha)]
  rw [show (match ([] : List Char) with
       | [] => ([] : List Char)
       | _ :: tail => tail.takeWhile (· != '.')) = ([] : List Char) from rfl]
  rw [List.nil_append, List.take_replicate]
  have hparse : jsBigIntParse (String.mk (decReprL w ++ List.replicate (min 18 18) '0'))
      = some ((baseVal 10 (decReprL w ++ List.replicate (min 18 18) '0') : Nat) : Int) := by
    apply jsBigIntParse_decDigits
    · intro h
      exact decReprL_ne_nil w (List.append_eq_nil.mp h).1
    · intro c hc
      rcases List.mem_append.mp hc with hc | hc
      · exact decReprL_all_dec w c hc
      · rw [List.eq_of_mem_replicate hc]
        decide
  rw [hparse]
  have hval : baseVal 10 (decReprL w ++ List.replicate (min 18 18) '0') = w * 10 ^ 18 := by
    rw [baseVal_append, baseVal_decReprL, baseVal_replicate_zero, List.length_replicate]
    norm_num
  rw [hval]
  simp only [Option.map_some']
  rw [intToDecString_coe]

/-- `formatWeiToCHZ` on a printed nonnegative integer feeds the parsed
value to the formatting core. -/
theorem formatWeiToCHZ_decRepr (n : Nat) :
    formatWeiToCHZ (String.mk (decReprL n)) = some (formatWeiToCHZCore ((n : Nat) : Int)) := by
  unfold formatWeiToCHZ
  rw [decReprL_parse]
  rfl

theorem padStartL_all_dec {l : List Char} (h : ∀ c ∈ l, isDecDigitCh c = true) (k : Nat) :
    ∀ c ∈ padStartL k '0' l, isDecDigitCh c = true := by
  intro c hc
  unfold padStartL at hc
  rcases List.mem_append.mp hc with hc | hc
  · rw [List.eq_of_mem_replicate hc]
    decide
  · exact h c hc

/-- Evaluation of the `formatWeiToCHZ` core on `w * 10^18 + frac`: the
output is the whole part, a decimal point and the trimmed fractional
digits. -/
theorem formatWeiToCHZCore_eval (w : Nat) (f : List Char)
    (hf : ∀ c ∈ f, isDecDigitCh c = true) (hlen : f.length ≤ 18) :
    formatWeiToCHZCore
        ((w * 10 ^ 18 + baseVal 10 (f ++ List.replicate (18 - f.length) '0') : Nat) : Int)
      = String.mk (trimFrac w f) := by
  have hp_lt : baseVal 10 (f ++ List.replicate (18 - f.length) '0') < 10 ^ 18 :=
    padded_val_lt hf hlen
  have hcast : ((10 : Int) ^ 18) = ((10 ^ 18 : Nat) : Int) := by norm_cast
  have hdiv : (w * 10 ^ 18 + baseVal 10 (f ++ List.replicate (18 - f.length) '0')) / 10 ^ 18
      = w := by
    rw [mul_comm, Nat.mul_add_div (by positivity), Nat.div_eq_of_lt hp_lt, Nat.add_zero]
  have hmod : (w * 10 ^ 18 + baseVal 10 (f ++ List.replicate (18 - f.length) '0')) % 10 ^ 18
      = baseVal 10 (f ++ List.replicate (18 - f.length) '0') := by
    rw [mul_comm, Nat.mul_add_mod, Nat.mod_eq_of_lt hp_lt]
  have hfs : padStartL 18 '0'
        (decReprL (baseVal 10 (f ++ List.replicate (18 - f.length) '0')))
      = f ++ List.replicate (18 - f.length) '0' := by
    apply dec_fixed_width_inj
    · exact padStartL_all_dec (decReprL_all_dec _) 18
    · exact padded_all_dec hf
    · have hlep : (decReprL (baseVal 10 (f ++ List.replicate (18 - f.length) '0'))).length
          ≤ 18 := natReprBase_length_le (by omega) (by omega) hp_lt
      rw [padStartL_length_of_le hlep, padded_length f hlen]
    · rw [baseVal_padStartL_zero, baseVal_decReprL]
  -- decompose the fractional digits into their nonzero prefix and the
  -- trailing zero run
  have hft : f.reverse.takeWhile (· == '0')
      = List.replicate (f.reverse.takeWhile (· == '0')).length '0' := by
    apply List.eq_replicate_of_mem
    intro b hb
    have := List.mem_takeWhile_imp hb
    simpa using this
  have hfdec : f = stripTrailingZeros f
      ++ List.replicate (f.reverse.takeWhile (· == '0')).length '0' := by
    conv_lhs => rw [← List.reverse_reverse f,
      ← List.takeWhile_append_dropWhile (· == '0') f.reverse,
      List.reverse_append, hft, List.reverse_replicate]
    rfl
  have hflen : f.length = (stripTrailingZeros f).length
      + (f.reverse.takeWhile (· == '0')).length := by
    conv_lhs => rw [hfdec]
    rw [List.length_append, List.length_replicate]
  have hpadded : f ++ List.replicate (18 - f.length) '0'
      = stripTrailingZeros f
        ++ List.replicate ((f.reverse.takeWhile (· == '0')).length + (18 - f.length)) '0' := by
    rw [List.replicate_add, ← List.append_assoc, ← hfdec]
  have hstrip_dec : ∀ c ∈ stripTrailingZeros f, isDecDigitCh c = true := by
    intro c hc
    apply hf
    rw [hfdec]
    exact List.mem_append.mpr (Or.inl hc)
  have hlast : ∀ c, (stripTrailingZeros f).reverse.head? = some c → c ≠ '0' := by
    intro c hc
    have hrev : (stripTrailingZeros f).reverse = f.reverse.dropWhile (· == '0') := by
      unfold stripTrailingZeros
      rw [List.reverse_reverse]
    rw [hrev] at hc
    have := head?_dropWhile_false hc
    simpa using this
  have htrim := jsTrim_whole_frac (decReprL w) (stripTrailingZeros f)
    ((f.reverse.takeWhile (· == '0')).length + (18 - f.length))
    (decReprL_ne_nil w) hstrip_dec hlast (by omega)
  unfold formatWeiToCHZCore
  rw [hcast, int_tdiv_coe, int_tmod_coe, hdiv, hmod, intToDecString_coe, intToDecString_coe,
    hfs, hpadded, htrim]
  have hne : (if stripTrailingZeros f = [] then decReprL w
      else decReprL w ++ '.' :: stripTrailingZeros f) ≠ [] := by
    split
    · exact decReprL_ne_nil w
    · simp [decReprL_ne_nil w]
  rw [if_neg hne]
  rfl

/-- C2: converting a canonical non-negative decimal amount with at most 18
fractional digits from CHZ to Wei with `formatCHZToWei` and back with
`formatWeiToCHZ` returns the original decimal string up to trimming of
trailing fractional zeros (and of the decimal point when the fractional
part is zero); whole-number amounts come back unchanged. -/
theorem c2_chz_wei_round_trip (w : Nat) (f : List Char)
    (hf : ∀ c ∈ f, isDecDigitCh c = true) (hlen : f.length ≤ 18) :
    (formatCHZToWei (String.mk (decReprL w ++ '.' :: f))).bind formatWeiToCHZ
        = some (String.mk (trimFrac w f)) ∧
    (formatCHZToWei (String.mk (decReprL w))).bind formatWeiToCHZ
        = some (String.mk (decReprL w)) := by
  constructor
  · rw [formatCHZToWei_eval_dot w f hf hlen, Option.some_bind, formatWeiToCHZ_decRepr,
      formatWeiToCHZCore_eval w f hf hlen]
  · rw [formatCHZToWei_eval_nodot w, Option.some_bind, formatWeiToCHZ_decRepr]
    have h0 : w * 10 ^ 18 = w * 10 ^ 18 + baseVal 10
        (([] : List Char) ++ List.replicate (18 - ([] : List Char).length) '0') := by
      rw [List.nil_append, baseVal_replicate_zero]
      omega
    rw [h0, formatWeiToCHZCore_eval w [] (by simp) (by simp)]
    have : trimFrac w [] = decReprL w := by
      unfold trimFrac
      rw [if_pos (show stripTrailingZeros [] = [] from rfl)]
    rw [this]

/-- Witness for C2 at the concrete amount `1.50` (trimming to `1.5`) and
the whole amount `7`. -/
theorem c2_chz_wei_round_trip_witness :
    (formatCHZToWei (String.mk (decReprL 1 ++ '.' :: ['5', '0']))).bind formatWeiToCHZ
        = some (String.mk (trimFrac 1 ['5', '0'])) ∧
    (formatCHZToWei (String.mk (decReprL 7))).bind formatWeiToCHZ
        = some (String.mk (decReprL 7)) :=
  ⟨(c2_chz_wei_round_trip 1 ['5', '0'] (by decide) (by decide)).1,
    (c2_chz_wei_round_trip 7 ['5', '0'] (by decide) (by decide)).2⟩

end Chiliz
